import Mathlib

/-!
Verification of the SingKANA lyrics-to-kana conversion engine.

The JavaScript sources are embedded shallowly: JS strings are modelled as
`List Char`, and every JS regex pass used by the engine is modelled by a
recursive function with the exact matching semantics of that regex
(leftmost, non-overlapping, greedy, continuing after each replacement).
JS `String.prototype.toLowerCase` is modelled on the ASCII range, which
covers every input the engine's tables can match.

Embedded sources:
 * src/submit_singkana_sanitized/singkana_core.js  (SingKANA JS Core v1.9)
 * src/unnamed/part_001  (standard transducer, diff engine, HTML escaping)
-/

/-- Character class of the JS regex `\s` (and of `String.prototype.trim`):
whitespace including space, tab, line terminators, NBSP, ideographic space. -/
def isJsWs (c : Char) : Bool :=
  c == ' ' || c == '\t' || c == '\n' || c == '\r' ||
  c == '\u000B' || c == '\u000C' || c == '\u00A0' || c == '\u1680' ||
  ('\u2000' ≤ c && c ≤ '\u200A') || c == '\u2028' || c == '\u2029' ||
  c == '\u202F' || c == '\u205F' || c == '\u3000' || c == '\uFEFF'

/-- The class `[A-Za-z]`. -/
def isAsciiLetter (c : Char) : Bool :=
  ('A' ≤ c && c ≤ 'Z') || ('a' ≤ c && c ≤ 'z')

/-- The class `[0-9]`. -/
def isDigitChar (c : Char) : Bool :=
  '0' ≤ c && c ≤ '9'

/-- The class `[A-Za-z0-9]`. -/
def isAsciiAlnum (c : Char) : Bool :=
  isAsciiLetter c || isDigitChar c

/-- The JS regex word-character class `\w` = `[A-Za-z0-9_]`, used by `\b`. -/
def isWordChar (c : Char) : Bool :=
  isAsciiAlnum c || c == '_'

/-- Whether the first character of the list is a `\w` character
(used to decide a JS `\b` word boundary against what follows). -/
def headIsWordChar : List Char → Bool
  | [] => false
  | c :: _ => isWordChar c

/-- JS `String.prototype.toLowerCase`, modelled on the ASCII range
(all dictionary keys and patterns of the engine are ASCII). -/
def toLowerChar (c : Char) : Char :=
  if 'A' ≤ c ∧ c ≤ 'Z' then Char.ofNat (c.toNat + 32) else c

/-- JS `String.prototype.trimEnd`. -/
def trimEndL (l : List Char) : List Char :=
  (l.reverse.dropWhile isJsWs).reverse

/-- JS `String.prototype.trim`. -/
def trimL (l : List Char) : List Char :=
  trimEndL (l.dropWhile isJsWs)

/-- Fueled worker for `replaceList`. The fuel is always the input length;
each step consumes at least one character (a matched pattern is nonempty),
so the zero-fuel branch is unreachable and recursion is structural. -/
def replaceListAux (pat rep : List Char) : Nat → List Char → List Char
  | _, [] => []
  | 0, l => l
  | fuel + 1, c :: rest =>
    if pat ≠ [] ∧ pat.isPrefixOf (c :: rest) then
      rep ++ replaceListAux pat rep fuel ((c :: rest).drop pat.length)
    else
      c :: replaceListAux pat rep fuel rest

/-- JS `s.replace(new RegExp(pat, "g"), rep)` for a plain-text pattern `pat`:
replace every occurrence, scanning left to right, non-overlapping,
continuing after each replacement. -/
def replaceList (pat rep : List Char) (l : List Char) : List Char :=
  replaceListAux pat rep l.length l

/-- Fueled worker for `splitWs`; the fuel is always the input length and
every step consumes at least one character, so the zero-fuel branch is
unreachable. -/
def splitWsAux : Nat → List Char → List (List Char)
  | _, [] => []
  | 0, _ :: _ => []
  | fuel + 1, c :: rest =>
    if isJsWs c then
      splitWsAux fuel rest
    else
      ((c :: rest).takeWhile (fun d => !isJsWs d)) ::
        splitWsAux fuel ((c :: rest).dropWhile (fun d => !isJsWs d))

/-- JS `s.split(/\s+/)` with empty pieces discarded (the engine always
either skips falsy pieces or applies `.filter(Boolean)`): the maximal
whitespace-free runs of the input, in order. -/
def splitWs (l : List Char) : List (List Char) :=
  splitWsAux l.length l

/-! ## singkana_core.js, section 0: NORMALIZE -/

/-- First pass of `normalizeText`: `.replace(/\r\n/g, "\n")`. -/
def stripCRLF : List Char → List Char
  | [] => []
  | '\r' :: '\n' :: rest => '\n' :: stripCRLF rest
  | c :: rest => c :: stripCRLF rest

/-- Pass `.replace(/ +/g, " ")` of `normalizeText`: each maximal run of
spaces collapses to a single space. -/
def collapseSpaces : List Char → List Char
  | [] => []
  | ' ' :: ' ' :: rest => collapseSpaces (' ' :: rest)
  | c :: rest => c :: collapseSpaces rest
termination_by l => l.length

/-- Function `normalizeText` of singkana_core.js: CRLF/CR to LF, ideographic space
and tab to space, collapse space runs, trim. -/
def normalizeText (text : List Char) : List Char :=
  trimL (collapseSpaces
    ((((stripCRLF text).map (fun c => if c == '\r' then '\n' else c)).map
        (fun c => if c == '\u3000' then ' ' else c)).map
      (fun c => if c == '\t' then ' ' else c)))

/-- Function `hasLatin` of singkana_core.js: `/[A-Za-z]/.test(str)`. -/
def hasLatin (l : List Char) : Bool := l.any isAsciiLetter

/-- Function `hasHangul` of singkana_core.js: `/[가-힣]/.test(str)`. -/
def hasHangul (l : List Char) : Bool :=
  l.any (fun c => '\uAC00' ≤ c && c ≤ '\uD7A3')

/-- Pass `.replace(/\b'n\b/gi, " and ")` of `normalizeLyricLine`.
The boolean argument records whether the character just before the current
position (in the original string) is a `\w` character, which decides the
leading `\b`. The trailing `\b` holds iff the next original character is
not a `\w` character. -/
def replaceApostNAux (prevWord : Bool) : List Char → List Char
  | [] => []
  | '\x27' :: rest =>
    match rest with
    | n :: rest2 =>
      if prevWord && (n == 'n' || n == 'N') && !headIsWordChar rest2 then
        ' ' :: 'a' :: 'n' :: 'd' :: ' ' :: replaceApostNAux true rest2
      else
        '\x27' :: replaceApostNAux false (n :: rest2)
    | [] => ['\x27']
  | c :: rest => c :: replaceApostNAux (isWordChar c) rest

/-- Pass `.replace(/([A-Za-z])'([A-Za-z])/g, "$1$2")` of
`normalizeLyricLine`: an apostrophe between two letters is removed; both
letters are consumed by the match, so the second letter cannot serve as
the left context of another match. -/
def removeInnerApost : List Char → List Char
  | a :: '\x27' :: b :: rest =>
    if isAsciiLetter a && isAsciiLetter b then
      a :: b :: removeInnerApost rest
    else
      a :: removeInnerApost ('\x27' :: b :: rest)
  | c :: rest => c :: removeInnerApost rest
  | [] => []

/-- Pass `.replace(/([A-Za-z])'+\b/g, "$1")` of `normalizeLyricLine`:
a letter followed by a run of apostrophes loses the run when the `\b`
after the run holds, i.e. when the next character is a `\w` character
(at end of input, or before a non-word character, the apostrophe `'`
is itself not a word character, so `\b` fails and nothing is replaced). -/
def removeTrailApostAux : Nat → List Char → List Char
  | _, [] => []
  | 0, l => l
  | fuel + 1, c :: rest =>
    if isAsciiLetter c && !(rest.takeWhile (fun d => d == '\x27')).isEmpty &&
        headIsWordChar (rest.dropWhile (fun d => d == '\x27')) then
      c :: removeTrailApostAux fuel (rest.dropWhile (fun d => d == '\x27'))
    else
      c :: removeTrailApostAux fuel rest

/-- Wrapper running `removeTrailApostAux` with fuel equal to the input
length; every step consumes at least one character, so the fuel never
runs out. -/
def removeTrailApost (l : List Char) : List Char :=
  removeTrailApostAux l.length l

/-- Pass `.replace(/'+/g, " ")` of `normalizeLyricLine`: each maximal run
of apostrophes becomes a single space. -/
def apostRunsToSpaceAux : Nat → List Char → List Char
  | _, [] => []
  | 0, l => l
  | fuel + 1, c :: rest =>
    if c == '\x27' then
      ' ' :: apostRunsToSpaceAux fuel (rest.dropWhile (fun d => d == '\x27'))
    else
      c :: apostRunsToSpaceAux fuel rest

/-- Wrapper running `apostRunsToSpaceAux` with fuel equal to the input
length; every step consumes at least one character, so the fuel never
runs out. -/
def apostRunsToSpace (l : List Char) : List Char :=
  apostRunsToSpaceAux l.length l

/-- Function `normalizeLyricLine` of singkana_core.js: apostrophe/quote
normalization for lyric lines. -/
def normalizeLyricLine (line : List Char) : List Char :=
  let t := line.map (fun c =>
    if c == '’' || c == '‘' || c == '‛' || c == '‚' || c == '\x60' ||
        c == '＇' || c == '｀' || c == '´' then '\x27' else c)
  let t := t.map (fun c =>
    if c == '“' || c == '”' || c == '„' then '"' else c)
  let t := replaceApostNAux false t
  let t := removeInnerApost t
  let t := removeTrailApost t
  let t := apostRunsToSpace t
  t.map (fun c => if c == '：' then ':' else c)

/-- Function `toKatakana` of singkana_core.js: `.replace(/[ぁ-ん]/g, cp + 0x60)`.
Note the range `ぁ..ん` is U+3041..U+3093 and does not include `ゔ`
(U+3094). -/
def toKatakana (l : List Char) : List Char :=
  l.map (fun c => if 'ぁ' ≤ c ∧ c ≤ 'ん' then Char.ofNat (c.toNat + 0x60) else c)

/-! ## singkana_core.js, section 1: BASIC WORD OVERRIDES -/

/-- Table `WORD_OVERRIDES` of singkana_core.js, in source order (the JS object
has no duplicate keys, so property access equals first-match lookup). -/
def WORD_OVERRIDES : List (String × String) := [
  ("you", "ユー"),
  ("your", "ユア"),
  ("i", "アイ"),
  ("me", "ミー"),
  ("my", "マイ"),
  ("we", "ウィー"),
  ("they", "ゼイ"),
  ("them", "ゼム"),
  ("it", "イット"),
  ("let", "レット"),
  ("go", "ゴー"),
  ("come", "カム"),
  ("coming", "カミング"),
  ("run", "ラン"),
  ("running", "ランニング"),
  ("take", "テイク"),
  ("taking", "テイキング"),
  ("make", "メイク"),
  ("making", "メイキング"),
  ("want", "ウォント"),
  ("wanting", "ウォンティング"),
  ("need", "ニード"),
  ("needing", "ニーディング"),
  ("sing", "シング"),
  ("singing", "シンギング"),
  ("cry", "クライ"),
  ("crying", "クライング"),
  ("laugh", "ラフ"),
  ("laughing", "ラフィング"),
  ("hold", "ホールド"),
  ("holdin", "ホールディン"),
  ("holdin\x27", "ホールディン"),
  ("cant", "キャント"),
  ("love", "ラヴ"),
  ("heart", "ハート"),
  ("feel", "フィール"),
  ("feels", "フィールズ"),
  ("feelings", "フィーリングス"),
  ("dream", "ドリーム"),
  ("dreaming", "ドリーミング"),
  ("desire", "デザイア"),
  ("fire", "ファイア"),
  ("higher", "ハイヤー"),
  ("fever", "フィーヴァー"),
  ("again", "アゲイン"),
  ("more", "モォア"),
  ("anymore", "エニモァ"),
  ("forever", "フォーエヴァー"),
  ("never", "ネヴァー"),
  ("ever", "エヴァー"),
  ("today", "トゥデイ"),
  ("yesterday", "イエスタデイ"),
  ("tomorrow", "トゥモロー"),
  ("night", "ナイト"),
  ("tonight", "トゥナイト"),
  ("light", "ライト"),
  ("bright", "ブライト"),
  ("right", "ライト"),
  ("wrong", "ロング"),
  ("strong", "ストロング"),
  ("storm", "ストーム"),
  ("door", "ドア"),
  ("before", "ビフォー"),
  ("after", "アフター"),
  ("inside", "インサイド"),
  ("outside", "アウツァイド"),
  ("world", "ワールド"),
  ("sky", "スカイ"),
  ("shine", "シャイン"),
  ("shining", "シャイニング"),
  ("gone", "ゴーン"),
  ("away", "アウェイ"),
  ("with", "ウィズ"),
  ("without", "ウィザウト"),
  ("because", "ビコーズ"),
  ("just", "ジャスト"),
  ("trust", "トラスト"),
  ("believe", "ビリーヴ"),
  ("dance", "ダンス"),
  ("dancing", "ダンシング"),
  ("call", "コール"),
  ("calling", "コーリング"),
  ("lord", "ロード"),
  ("thanks", "サンクス"),
  ("praise", "プレイズ"),
  ("give", "ギヴ")]

/-- JS `Object.prototype.hasOwnProperty.call(WORD_OVERRIDES, w)` followed by
`WORD_OVERRIDES[w]`. -/
def findOverride (w : List Char) : Option (List Char) :=
  match WORD_OVERRIDES.find? (fun p => p.1.data == w) with
  | some p => some p.2.data
  | none => none

/-! ## singkana_core.js, section 2: PHRASE REPLACEMENTS -/

/-- One character, dropped from the head of the list if present: models a
greedy optional (`c?`) regex item. For the patterns below the greedy
choice is the only viable one: when the optional character is present but
skipping it is attempted, the continuation (`\s*` followed by a different
required character) immediately fails on that same character. -/
def dropOptional (c : Char) : List Char → List Char
  | [] => []
  | d :: rest => if d == c then rest else d :: rest

/-- Matcher for the tail of `/レッ?\s*イッ?\s*ゴー/` after the leading `レ`
has been consumed: returns the remaining input after the match, or `none`. -/
def matchReriGoTail (l : List Char) : Option (List Char) :=
  match (dropOptional 'ッ' l).dropWhile isJsWs with
  | 'イ' :: l3 =>
    match (dropOptional 'ッ' l3).dropWhile isJsWs with
    | 'ゴ' :: 'ー' :: l6 => some l6
    | _ => none
  | _ => none

/-- Scanner for `postProcessKana`'s only rule,
`.replace(/レッ?\s*イッ?\s*ゴー/g, "レリゴー")`: leftmost matches, scanning
resumes after each replacement. The `Nat` argument is fuel, always called
with the input length; every step consumes at least one character
(`matchReriGoTail` returns a proper suffix of its input), so the fuel
never runs out and the zero-fuel branch is unreachable. -/
def postProcessAux : Nat → List Char → List Char
  | 0, l => l
  | _ + 1, [] => []
  | fuel + 1, 'レ' :: rest =>
    match matchReriGoTail rest with
    | some l6 => 'レ' :: 'リ' :: 'ゴ' :: 'ー' :: postProcessAux fuel l6
    | none => 'レ' :: postProcessAux fuel rest
  | fuel + 1, c :: rest => c :: postProcessAux fuel rest

/-- Function `postProcessKana` of singkana_core.js. -/
def postProcessKana (text : List Char) : List Char :=
  postProcessAux text.length text

/-! ## singkana_core.js, section 3: VOCAL STYLE C -/

/-- Pass `.replace(/モォアー?/g, "モォアァ")` of `applyVocalStyleC`:
the optional `ー` is matched greedily. -/
def replaceMoaLongAux : Nat → List Char → List Char
  | _, [] => []
  | 0, l => l
  | fuel + 1, c :: rest =>
    if ['モ', 'ォ', 'ア', 'ー'].isPrefixOf (c :: rest) then
      'モ' :: 'ォ' :: 'ア' :: 'ァ' :: replaceMoaLongAux fuel ((c :: rest).drop 4)
    else if ['モ', 'ォ', 'ア'].isPrefixOf (c :: rest) then
      'モ' :: 'ォ' :: 'ア' :: 'ァ' :: replaceMoaLongAux fuel ((c :: rest).drop 3)
    else
      c :: replaceMoaLongAux fuel rest

/-- Wrapper running `replaceMoaLongAux` with fuel equal to the input
length; every step consumes at least one character, so the fuel never
runs out. -/
def replaceMoaLong (l : List Char) : List Char :=
  replaceMoaLongAux l.length l

/-- The five bare vowel katakana of the class `[アイウエオ]`. -/
def isVowelKana (c : Char) : Bool :=
  c == 'ア' || c == 'イ' || c == 'ウ' || c == 'エ' || c == 'オ'

/-- Whether, after a matched vowel, the rest of the line completes the
regex `([アイウエオ])ー?\s*$`: an optional `ー` (greedy; backtracking
cannot help since `ー` is not `\s`) followed by whitespace until the end. -/
def elongTailMatch (l : List Char) : Bool :=
  (dropOptional 'ー' l).all isJsWs

/-- Pass `.replace(/([アイウエオ])ー?\s*$/g, "$1ーー")` of
`applyVocalStyleC` (line-final long-tone reinforcement): at most one
position can match (everything after it must be whitespace), and the
matched text — vowel, optional mark, trailing whitespace — is replaced by
the vowel followed by exactly two long-vowel marks. -/
def elongLineEnd : List Char → List Char
  | [] => []
  | c :: rest =>
    if isVowelKana c && elongTailMatch rest then [c, 'ー', 'ー']
    else c :: elongLineEnd rest

/-- The seven targeted substring substitutions of `applyVocalStyleC`, in
source order (everything before the line-final elongation). -/
def vocalStyleSubsts (lineKana : List Char) : List Char :=
  let t := replaceList "モア".data "モォアァ".data lineKana
  let t := replaceMoaLong t
  let t := replaceList "ファイア".data "ファイアァ".data t
  let t := replaceList "デザイア".data "デザイアァ".data t
  let t := replaceList "タイム".data "タイムゥ".data t
  let t := replaceList "ナイト".data "ナイッ".data t
  replaceList "ライト".data "ライッ".data t

/-- Function `applyVocalStyleC` of singkana_core.js: the seven targeted
substring substitutions in source order, then line-final elongation. -/
def applyVocalStyleC (lineKana : List Char) : List Char :=
  elongLineEnd (vocalStyleSubsts lineKana)

/-! ## singkana_core.js, section 4: SIMPLE ROMAN TO KANA (fallback) -/

/-- Table `patternMap` of `romanToKana`, in source order. -/
def patternMap : List (String × String) := [
  ("tion", "しょん"),
  ("sion", "じょん"),
  ("ight", "あいと"),
  ("igh", "あい"),
  ("ph", "ふ"),
  ("sh", "し"),
  ("ch", "ち"),
  ("th", "す"),
  ("wh", "う"),
  ("ck", "く"),
  ("ng", "んぐ"),
  ("qu", "く"),
  ("oo", "うー"),
  ("ee", "いー"),
  ("ea", "いー"),
  ("ai", "えい"),
  ("ay", "えい"),
  ("ow", "あう"),
  ("ou", "あう"),
  ("er", "あー"),
  ("or", "おー")]

/-- Table `charMap` of `romanToKana` (hiragana values); `none` for any
character outside the 26 letter keys. -/
def charMap (c : Char) : Option String :=
  match c with
  | 'a' => some "あ"
  | 'e' => some "え"
  | 'i' => some "い"
  | 'o' => some "お"
  | 'u' => some "う"
  | 'y' => some "い"
  | 'b' => some "ぶ"
  | 'c' => some "く"
  | 'd' => some "ど"
  | 'f' => some "ふ"
  | 'g' => some "ぐ"
  | 'h' => some "は"
  | 'j' => some "じ"
  | 'k' => some "く"
  | 'l' => some "る"
  | 'm' => some "む"
  | 'n' => some "ん"
  | 'p' => some "ぷ"
  | 'q' => some "く"
  | 'r' => some "る"
  | 's' => some "す"
  | 't' => some "と"
  | 'v' => some "ゔ"
  | 'w' => some "う"
  | 'x' => some "くす"
  | 'z' => some "ず"
  | _ => none

/-- Function `romanToKana` of singkana_core.js: lowercase, apply
`patternMap` rules in order (each a global string replacement), then map
every remaining character through `charMap` (digits pass through, any
other character — including the kana produced by `patternMap` — is
dropped, since `charMap[ch]` is undefined for it), concatenate, convert
hiragana to katakana, and replace `ゔ` by `ヴ`. -/
def romanToKana (word : List Char) : List Char :=
  if word.isEmpty then [] else
  let s := word.map toLowerChar
  let s := patternMap.foldl (fun acc pr => replaceList pr.1.data pr.2.data acc) s
  let result := s.foldr (fun ch acc =>
    match charMap ch with
    | some k => k.data ++ acc
    | none => if isDigitChar ch then ch :: acc else acc) []
  let out := toKatakana result
  out.map (fun c => if c == 'ゔ' then 'ヴ' else c)

/-! ## singkana_core.js, sections 5 and 6: KOREAN PLACEHOLDER, MAIN LINE -/

/-- Function `koreanToKanaLine` of singkana_core.js: unimplemented stub,
returns the line unchanged. -/
def koreanToKanaLine (line : List Char) : List Char := line

/-- The `leadingPunc` of one raw token in `englishToKanaLine`:
`raw.match(/^[^A-Za-z0-9]+/)` (empty when there is no match) with
`[’']` characters removed. -/
def leadingPuncOf (raw : List Char) : List Char :=
  (raw.takeWhile (fun c => !isAsciiAlnum c)).filter
    (fun c => !(c == '’' || c == '\x27'))

/-- The `trailingPunc` of one raw token:
`raw.match(/[^A-Za-z0-9]+$/)` (the maximal non-alphanumeric suffix of
`raw`, empty when there is no match) with `[’']` characters removed. -/
def trailingPuncOf (raw : List Char) : List Char :=
  (raw.reverse.takeWhile (fun c => !isAsciiAlnum c)).reverse.filter
    (fun c => !(c == '’' || c == '\x27'))

/-- The `core` of one raw token:
`raw.replace(/^[^A-Za-z0-9]+/, "").replace(/[^A-Za-z0-9]+$/, "")`. -/
def coreOf (raw : List Char) : List Char :=
  ((raw.dropWhile (fun c => !isAsciiAlnum c)).reverse.dropWhile
    (fun c => !isAsciiAlnum c)).reverse

/-- The `kanaCore` computed for a non-empty token core: the override
table value at the lowercased core when present, otherwise the fallback
transducer applied to the core. -/
def kanaCoreOf (core : List Char) : List Char :=
  match findOverride (core.map toLowerChar) with
  | some v => v
  | none => romanToKana core

/-- One iteration of the token loop of `englishToKanaLine`: the value
pushed onto `kanaWords` for the raw token `raw` (the loop itself also
skips empty tokens, handled by `splitWs`). -/
def tokenToKana (raw : List Char) : List Char :=
  let lead := leadingPuncOf raw
  let trail := trailingPuncOf raw
  let core := coreOf raw
  if core.isEmpty then lead ++ trail
  else lead ++ kanaCoreOf core ++ trail

/-- The post-passes of `englishToKanaLine` applied to the assembled kana
line (everything in the source after `kanaWords.join(" ")`): apostrophe
removal, colon removal, phrase correction, vocal styling, the double
hiragana-to-katakana pass (the final insurance pass of the source is
literally the body of `toKatakana` inlined, hence `toKatakana` applied
twice), and the final `ゔ` replacement. -/
def linePostPasses (kana : List Char) : List Char :=
  let kana := kana.filter
    (fun c => !(c == '’' || c == '‘' || c == '\x27' || c == '｀' || c == '´'))
  let kana := kana.map (fun c => if c == ':' || c == '：' then ' ' else c)
  let kana := postProcessKana kana
  let kana := applyVocalStyleC kana
  let kana := toKatakana kana
  let kana := toKatakana kana
  kana.map (fun c => if c == 'ゔ' then 'ヴ' else c)

/-- Function `englishToKanaLine` of singkana_core.js: normalize the lyric
line, split it into whitespace-delimited tokens, convert each token, join
with single spaces, and run the post-passes. -/
def englishToKanaLine (line : List Char) : List Char :=
  if (trimL (normalizeLyricLine line)).isEmpty then [] else
  linePostPasses
    (List.intercalate [' '] ((splitWs (normalizeLyricLine line)).map tokenToKana))

/-! ## singkana_core.js, section 7: LYRICS -/

/-- One output entry of `convertLyrics`. -/
structure ConvertedLine where
  lineNo : Nat
  en : List Char
  kana : List Char
deriving DecidableEq

/-- The per-raw-line cleanup of `convertLyrics`:
`raw.replace(/\r/g, "").trimEnd()`. -/
def lineOfRaw (raw : List Char) : List Char :=
  trimEndL (raw.filter (fun c => !(c == '\r')))

/-- The loop of `convertLyrics`: `lineNo` counts previously emitted
lines; blank lines (whose trimmed form is empty) are skipped and do not
increment the counter. -/
def convertLoop : Nat → List (List Char) → List ConvertedLine
  | _, [] => []
  | n, raw :: rest =>
    let line := lineOfRaw raw
    if (trimL line).isEmpty then convertLoop n rest
    else
      let kana :=
        if hasLatin line then englishToKanaLine line
        else if hasHangul line then koreanToKanaLine line
        else line
      ⟨n + 1, line, kana⟩ :: convertLoop (n + 1) rest

/-- Function `convertLyrics` of singkana_core.js. -/
def convertLyrics (text : List Char) : List ConvertedLine :=
  let norm := normalizeText text
  if norm.isEmpty then []
  else convertLoop 0 (norm.splitOn '\n')

/-- Whether one raw line of `convertLyrics` is skipped as blank:
`!line.trim()` after `raw.replace(/\r/g, "").trimEnd()`. -/
def isBlankRaw (raw : List Char) : Bool :=
  (trimL (lineOfRaw raw)).isEmpty

/-- The number of non-blank lines of the normalized text: what the
line-count invariant of the spec counts. -/
def nonBlankCount (text : List Char) : Nat :=
  ((normalizeText text).splitOn '\n').countP (fun raw => !isBlankRaw raw)

/-! ## src/unnamed/part_001: standard transducer, diff engine, escaping -/

/-- Table `charMap` of `romanToKanaStandard` (katakana values, no digraph
awareness); `none` for any character outside the 26 letter keys. -/
def charMapStandard (c : Char) : Option String :=
  match c with
  | 'a' => some "ア"
  | 'e' => some "エ"
  | 'i' => some "イ"
  | 'o' => some "オ"
  | 'u' => some "ウ"
  | 'y' => some "イ"
  | 'b' => some "ブ"
  | 'c' => some "ク"
  | 'd' => some "ド"
  | 'f' => some "フ"
  | 'g' => some "グ"
  | 'h' => some "ハ"
  | 'j' => some "ジ"
  | 'k' => some "ク"
  | 'l' => some "ル"
  | 'm' => some "ム"
  | 'n' => some "ン"
  | 'p' => some "プ"
  | 'q' => some "ク"
  | 'r' => some "ル"
  | 's' => some "ス"
  | 't' => some "ト"
  | 'v' => some "ヴ"
  | 'w' => some "ウ"
  | 'x' => some "クス"
  | 'z' => some "ズ"
  | _ => none

/-- Function `romanToKanaStandard` of src/unnamed/part_001: lowercase the
word and map each character through the flat `charMapStandard` (digits
pass through, everything else is dropped). No pattern rules, no override
table, no word list of any kind is consulted. -/
def romanToKanaStandard (word : List Char) : List Char :=
  if word.isEmpty then [] else
  (word.map toLowerChar).foldr (fun ch acc =>
    match charMapStandard ch with
    | some k => k.data ++ acc
    | none => if isDigitChar ch then ch :: acc else acc) []

/-- Model of `escapeHtml` of src/unnamed/part_001 (DOM based:
`div.textContent = text; return div.innerHTML`): the HTML text-node
serialization escapes `&`, no-break space, `<` and `>`, and leaves every
other character unchanged. -/
def escapeHtmlChar (c : Char) : List Char :=
  if c == '&' then "&amp;".data
  else if c == '\u00A0' then "&nbsp;".data
  else if c == '<' then "&lt;".data
  else if c == '>' then "&gt;".data
  else [c]

/-- HTML-escape a string character by character. -/
def escapeHtml (l : List Char) : List Char :=
  (l.map escapeHtmlChar).flatten

/-- The opening tag emitted by `highlightDifferences` around a changed
optimized word. -/
def spanOpenTag : List Char :=
  "<span class=\"bg-singkana-500/20 text-singkana-100 px-0.5 rounded\">".data

/-- The closing tag emitted by `highlightDifferences`. -/
def spanCloseTag : List Char := "</span>".data

/-- The iterations of the cursor loop of `highlightDifferences` once the
standard cursor is exhausted: every remaining optimized word is emitted
wrapped in the changed-marker span. -/
def diffLoopTail : List (List Char) → List Char
  | [] => []
  | k :: ks =>
    (spanOpenTag ++ escapeHtml k ++ spanCloseTag)
      ++ (if ks.isEmpty then [] else [' '])
      ++ diffLoopTail ks

/-- The main cursor walk while the standard list is nonempty; once the
standard cursor is exhausted the loop continues as `diffLoopTail`. -/
def diffLoop : List (List Char) → List (List Char) → List Char
  | [], ks => diffLoopTail ks
  | _ :: ss, [] =>
    (if ss.isEmpty then [] else [' ']) ++ diffLoop ss []
  | s :: ss, k :: ks =>
    (if s == k then escapeHtml k else spanOpenTag ++ escapeHtml k ++ spanCloseTag)
      ++ (if ss.isEmpty && ks.isEmpty then [] else [' '])
      ++ diffLoop ss ks

/-- The cursor loop of `highlightDifferences`, operating on the two
word lists: equal current words emit the escaped optimized word and
advance both cursors; otherwise the escaped optimized word (if any) is
emitted wrapped in the changed-marker span and both cursors advance by at
most one; a single space separates iterations while either list still has
remaining words.

Function `highlightDifferences` of src/unnamed/part_001: empty
standard or empty optimized input short-circuits to the escaped optimized
text (`escapeHtml(singkana || "")`); otherwise both strings are split on
whitespace (empty pieces filtered out) and walked by `diffLoop`. -/
def highlightDifferences (standard singkana : List Char) : List Char :=
  if standard.isEmpty || singkana.isEmpty then escapeHtml singkana
  else diffLoop (splitWs standard) (splitWs singkana)

/-! ## Claim-side extraction helpers (for the diff-engine invariant)

These two functions implement, from the claim's words, the procedure
"remove the changed-marker span tags, then undo the HTML escaping": they
are the observation the invariant is stated through, not part of the
embedded program. -/

/-- Removal of every occurrence of the changed-marker `<span ...>` and
`</span>` tags. -/
def stripSpanTagsAux : Nat → List Char → List Char
  | _, [] => []
  | 0, l => l
  | fuel + 1, c :: rest =>
    if spanOpenTag.isPrefixOf (c :: rest) then
      stripSpanTagsAux fuel ((c :: rest).drop spanOpenTag.length)
    else if spanCloseTag.isPrefixOf (c :: rest) then
      stripSpanTagsAux fuel ((c :: rest).drop spanCloseTag.length)
    else
      c :: stripSpanTagsAux fuel rest

/-- Wrapper running `stripSpanTagsAux` with fuel equal to the input
length; every step consumes at least one character (both tags are
nonempty), so the fuel never runs out. -/
def stripSpanTags (l : List Char) : List Char :=
  stripSpanTagsAux l.length l

/-- Inverse of the HTML text escaping: decode `&amp;`, `&lt;`, `&gt;`
and `&nbsp;` entities, leave everything else unchanged. -/
def unescapeHtmlAux : Nat → List Char → List Char
  | _, [] => []
  | 0, l => l
  | fuel + 1, c :: rest =>
    if c == '&' then
      if ['a', 'm', 'p', ';'].isPrefixOf rest then
        '&' :: unescapeHtmlAux fuel (rest.drop 4)
      else if ['l', 't', ';'].isPrefixOf rest then
        '<' :: unescapeHtmlAux fuel (rest.drop 3)
      else if ['g', 't', ';'].isPrefixOf rest then
        '>' :: unescapeHtmlAux fuel (rest.drop 3)
      else if ['n', 'b', 's', 'p', ';'].isPrefixOf rest then
        '\u00A0' :: unescapeHtmlAux fuel (rest.drop 5)
      else c :: unescapeHtmlAux fuel rest
    else c :: unescapeHtmlAux fuel rest

/-- Wrapper running `unescapeHtmlAux` with fuel equal to the input
length; every step consumes at least one character, so the fuel never
runs out. -/
def unescapeHtml (l : List Char) : List Char :=
  unescapeHtmlAux l.length l

/-! ## Claim theorems -/

/-- Claim C3 (code bug evidence): the claim says `romanToKana` of a word
ending in "tion" ends in the kana ション because the digraph
substitution's output survives the per-character mapping step. It does
not: on "nation" the rule `tion → しょん` fires, but the per-character
loop drops the produced kana (kana characters are not `charMap` keys and
are not digits), so the result is ンア and does not end in ション. -/
theorem c3_tion_kana_dropped :
    romanToKana "nation".data = "ンア".data ∧
    ("ション".data.isSuffixOf (romanToKana "nation".data)) = false := by decide

/-- Claim C4 (counterexample): on "You and me" the conversion yields
exactly ユー アンド ミー; the line-final elongation step leaves that line
unchanged, and the output does not end in an additional long-vowel mark
(ミーー is not a suffix), contrary to the claim. -/
theorem c4_no_final_elongation :
    englishToKanaLine "You and me".data = "ユー アンド ミー".data ∧
    elongLineEnd "ユー アンド ミー".data = "ユー アンド ミー".data ∧
    ("ミーー".data.isSuffixOf (englishToKanaLine "You and me".data)) = false := by
  decide

/-- Claim C4 (amended): "You and me" routes "you" and "me" through the
Override Table (not the fallback transducer), but no long-vowel mark is
appended: the override rendering ミー ends in the long-vowel mark
preceded by ミ, which is not one of the five bare vowel kana, so the
line-final elongation step does not fire and the output is exactly
ユー アンド ミー. -/
theorem c4_amended_override_routing :
    englishToKanaLine "You and me".data = "ユー アンド ミー".data ∧
    findOverride "you".data = some "ユー".data ∧
    findOverride "me".data = some "ミー".data ∧
    kanaCoreOf "You".data = "ユー".data ∧
    kanaCoreOf "me".data = "ミー".data ∧
    romanToKana "You".data ≠ "ユー".data ∧
    romanToKana "me".data ≠ "ミー".data ∧
    isVowelKana 'ミ' = false := by decide

/-- Claim C5 (counterexample): on the line ア, which ends in a bare vowel
kana with no long-vowel mark, `applyVocalStyleC` yields アーー — it
appends two long-vowel marks, not exactly one as the claim states. -/
theorem c5_bare_vowel_gains_two_marks :
    applyVocalStyleC "ア".data = "アーー".data ∧
    applyVocalStyleC "ア".data ≠ "ア".data ++ ['ー'] := by decide

/-- Claim C6 (code bug evidence): the claim (and the source's own header
comment) says "let it go" collapses to レリゴー. It does not: the
override renderings レット and イット end in ト, which the phrase regex
`レッ?\s*イッ?\s*ゴー` cannot match, so `postProcessKana` leaves the line
unchanged and レリゴー never appears. -/
theorem c6_let_it_go_not_collapsed :
    englishToKanaLine "Let it go".data = "レット イット ゴー".data ∧
    ¬ ("レリゴー".data <:+: englishToKanaLine "Let it go".data) ∧
    postProcessKana "レット イット ゴー".data = "レット イット ゴー".data := by
  decide

/-- Claim C7 (code bug evidence): for a punctuation-only token the
leading-punctuation and trailing-punctuation regexes both match the whole
token, so `leadingPunc + core + trailingPunc` is the token doubled, not
the token, and the doubled form is what the conversion emits. -/
theorem c7_empty_core_token_doubled :
    leadingPuncOf "!!".data = "!!".data ∧
    trailingPuncOf "!!".data = "!!".data ∧
    coreOf "!!".data = [] ∧
    leadingPuncOf "!!".data ++ coreOf "!!".data ++ trailingPuncOf "!!".data ≠
      "!!".data ∧
    tokenToKana "!!".data = "!!!!".data ∧
    englishToKanaLine "oh !!".data = "オハ !!!!".data := by decide

/-- Claim C8: the Standard transducer and the Override-Table-driven
optimized kana diverge on "you": `romanToKanaStandard` (which consults no
word list) yields イオウ while the Override Table stores ユー. -/
theorem c8_standard_optimized_divergence :
    romanToKanaStandard "you".data = "イオウ".data ∧
    findOverride "you".data = some "ユー".data ∧
    romanToKanaStandard "you".data ≠ "ユー".data := by decide

/-- Claim C9: whenever the standard string or the optimized string is
empty, `highlightDifferences` returns the HTML-escaped optimized text
unchanged (the empty optimized case yielding the empty string), without
any token alignment. -/
theorem c9_diff_empty_input_shortcircuit :
    ∀ standard singkana : List Char,
      standard = [] ∨ singkana = [] →
      highlightDifferences standard singkana = escapeHtml singkana := by
  intro s k h
  rcases h with h | h <;> subst h <;> simp [highlightDifferences]

/-- Witness for C9 at empty standard input and optimized input ア<. -/
theorem c9_diff_empty_input_witness :
    highlightDifferences [] "ア<".data = escapeHtml "ア<".data :=
  c9_diff_empty_input_shortcircuit [] "ア<".data (Or.inl rfl)

/-! ## Supporting lemmas and theorem for claim C2 -/

/-- The loop of `convertLyrics` emits one entry per non-blank raw line,
numbered sequentially from one past the running counter. -/
theorem convertLoop_count (ls : List (List Char)) : ∀ n : Nat,
    (convertLoop n ls).length = ls.countP (fun raw => !isBlankRaw raw) ∧
    (convertLoop n ls).map ConvertedLine.lineNo =
      List.range' (n + 1) (ls.countP (fun raw => !isBlankRaw raw)) := by
  induction ls with
  | nil => intro n; simp [convertLoop]
  | cons raw rest ih =>
    intro n
    by_cases hb : (trimL (lineOfRaw raw)).isEmpty
    · have hcount : (List.countP (fun raw => !isBlankRaw raw) (raw :: rest)) =
          List.countP (fun raw => !isBlankRaw raw) rest := by
        simp [List.countP_cons, isBlankRaw, hb]
      rw [hcount]
      simpa [convertLoop, hb] using ih n
    · have hcount : (List.countP (fun raw => !isBlankRaw raw) (raw :: rest)) =
          List.countP (fun raw => !isBlankRaw raw) rest + 1 := by
        simp [List.countP_cons, isBlankRaw, hb]
      rw [hcount, List.range'_succ]
      refine ⟨?_, ?_⟩
      · simpa [convertLoop, hb] using (ih (n + 1)).1
      · simpa [convertLoop, hb] using (ih (n + 1)).2

/-- Mapping a whitespace-preserving character function preserves
all-whitespace lists. -/
theorem map_preserves_ws (f : Char → Char)
    (hf : ∀ c, isJsWs c = true → isJsWs (f c) = true) (l : List Char)
    (h : ∀ c ∈ l, isJsWs c = true) : ∀ c ∈ l.map f, isJsWs c = true := by
  intro c hc
  rcases List.mem_map.mp hc with ⟨x, hx, rfl⟩
  exact hf x (h x hx)

/-- The CRLF pass preserves all-whitespace lists. -/
theorem stripCRLF_preserves_ws (l : List Char)
    (h : ∀ c ∈ l, isJsWs c = true) : ∀ c ∈ stripCRLF l, isJsWs c = true := by
  induction l using stripCRLF.induct with
  | case1 => simpa [stripCRLF] using h
  | case2 rest ih =>
    intro c hc
    rw [stripCRLF] at hc
    rcases List.mem_cons.mp hc with rfl | hc
    · decide
    · exact ih (fun x hx => h x (by simp [hx])) c hc
  | case3 c rest h1 ih =>
    intro d hd
    rw [stripCRLF] at hd
    rotate_left
    · exact h1
    rcases List.mem_cons.mp hd with rfl | hd
    · exact h d (by simp)
    · exact ih (fun x hx => h x (by simp [hx])) d hd

/-- The space-collapsing pass preserves all-whitespace lists. -/
theorem collapseSpaces_preserves_ws (l : List Char)
    (h : ∀ c ∈ l, isJsWs c = true) : ∀ c ∈ collapseSpaces l, isJsWs c = true := by
  induction l using collapseSpaces.induct with
  | case1 => simpa [collapseSpaces] using h
  | case2 rest ih =>
    intro c hc
    rw [collapseSpaces] at hc
    exact ih (fun x hx => h x (by rcases List.mem_cons.mp hx with rfl | hx <;> simp [hx]))
      c hc
  | case3 c rest h1 ih =>
    intro d hd
    rw [collapseSpaces] at hd
    rotate_left
    · exact h1
    rcases List.mem_cons.mp hd with rfl | hd
    · exact h d (by simp)
    · exact ih (fun x hx => h x (by simp [hx])) d hd

/-- Normalization of an all-whitespace text yields the empty string. -/
theorem normalizeText_of_ws (text : List Char)
    (h : ∀ c ∈ text, isJsWs c = true) : normalizeText text = [] := by
  have h1 := stripCRLF_preserves_ws text h
  have h2 := map_preserves_ws (fun c => if c == '\r' then '\n' else c)
    (fun c hc => by
      show isJsWs (if c == '\r' then '\n' else c) = true
      split
      · decide
      · exact hc) _ h1
  have h3 := map_preserves_ws (fun c => if c == '　' then ' ' else c)
    (fun c hc => by
      show isJsWs (if c == '　' then ' ' else c) = true
      split
      · decide
      · exact hc) _ h2
  have h4 := map_preserves_ws (fun c => if c == '\t' then ' ' else c)
    (fun c hc => by
      show isJsWs (if c == '\t' then ' ' else c) = true
      split
      · decide
      · exact hc) _ h3
  have h5 := collapseSpaces_preserves_ws _ h4
  unfold normalizeText trimL trimEndL
  rw [List.dropWhile_eq_nil_iff.mpr h5]
  rfl

/-- Claim C2: `convertLyrics` returns exactly one entry per non-blank
line of the normalized text, with `lineNo` assigned sequentially from 1
to the non-blank lines only (blank lines produce no entry and do not
increment the counter); for whitespace-only (in particular empty) input
it returns the empty list. -/
theorem c2_line_count_invariant : ∀ text : List Char,
    (convertLyrics text).length = nonBlankCount text ∧
    (convertLyrics text).map ConvertedLine.lineNo =
      List.range' 1 (nonBlankCount text) ∧
    ((∀ c ∈ text, isJsWs c = true) → convertLyrics text = []) := by
  intro text
  have hmain : (convertLyrics text).length = nonBlankCount text ∧
      (convertLyrics text).map ConvertedLine.lineNo =
        List.range' 1 (nonBlankCount text) := by
    by_cases hn : (normalizeText text).isEmpty
    · have : normalizeText text = [] := by
        cases hnt : normalizeText text with
        | nil => rfl
        | cons a l => rw [hnt] at hn; simp [List.isEmpty] at hn
      constructor
      · simp [convertLyrics, nonBlankCount, this, List.splitOn, isBlankRaw,
          lineOfRaw, trimL, trimEndL]
      · simp [convertLyrics, nonBlankCount, this, List.splitOn, isBlankRaw,
          lineOfRaw, trimL, trimEndL]
    · have h0 := convertLoop_count ((normalizeText text).splitOn '\n') 0
      constructor
      · simpa [convertLyrics, nonBlankCount, hn] using h0.1
      · simpa [convertLyrics, nonBlankCount, hn] using h0.2
  refine ⟨hmain.1, hmain.2.symm ▸ hmain.2, ?_⟩
  intro h
  simp [convertLyrics, normalizeText_of_ws text h]

/-- Witness for C2: a whitespace-only input yields the empty list. -/
theorem c2_line_count_invariant_witness : convertLyrics "  ".data = [] :=
  (c2_line_count_invariant "  ".data).2.2 (by decide)

/-! ## Supporting lemmas and theorems for claim C5 -/

/-- A bare vowel katakana is not whitespace. -/
theorem vowel_not_ws (v : Char) (hv : isVowelKana v = true) : isJsWs v = false := by
  simp only [isVowelKana, Bool.or_eq_true, beq_iff_eq] at hv
  rcases hv with (((h | h) | h) | h) | h <;> subst h <;> decide

/-- A bare vowel katakana is not the long-vowel mark. -/
theorem vowel_ne_mark (v : Char) (hv : isVowelKana v = true) : (v == 'ー') = false := by
  simp only [isVowelKana, Bool.or_eq_true, beq_iff_eq] at hv
  rcases hv with (((h | h) | h) | h) | h <;> subst h <;> decide

/-- The line-end pattern cannot match before a later bare vowel: a tail
that still contains a bare vowel at its end is not an
optional-mark-then-whitespace tail. -/
theorem elongTailMatch_before_vowel (v : Char) (hv : isVowelKana v = true)
    (p : List Char) : elongTailMatch (p ++ [v]) = false := by
  have hws := vowel_not_ws v hv
  have hne := vowel_ne_mark v hv
  cases p with
  | nil => simp [elongTailMatch, dropOptional, hne, hws]
  | cons d q =>
    by_cases hd : (d == 'ー') = true
    · simp [elongTailMatch, dropOptional, hd, List.all_append, hws]
    · simp [elongTailMatch, dropOptional, hd, List.all_append, hws]

/-- Same, for a tail ending in a bare vowel followed by one mark. -/
theorem elongTailMatch_before_vowel_mark (v : Char) (hv : isVowelKana v = true)
    (p : List Char) : elongTailMatch (p ++ [v, 'ー']) = false := by
  have hws := vowel_not_ws v hv
  have hne := vowel_ne_mark v hv
  cases p with
  | nil => simp [elongTailMatch, dropOptional, hne, hws]
  | cons d q =>
    by_cases hd : (d == 'ー') = true
    · simp [elongTailMatch, dropOptional, hd, List.all_append, hws]
    · simp [elongTailMatch, dropOptional, hd, List.all_append, hws]

/-- The line-final elongation pass rewrites a line ending in a bare vowel
(with no or one long-vowel mark) so that it ends in the vowel followed by
exactly two marks. -/
theorem elongLineEnd_append_vowel (v : Char) (hv : isVowelKana v = true) :
    ∀ p : List Char,
      elongLineEnd (p ++ [v]) = p ++ [v, 'ー', 'ー'] ∧
      elongLineEnd (p ++ [v, 'ー']) = p ++ [v, 'ー', 'ー'] := by
  intro p
  induction p with
  | nil =>
    constructor
    · show elongLineEnd [v] = [v, 'ー', 'ー']
      rw [elongLineEnd]
      simp [hv, elongTailMatch, dropOptional]
    · show elongLineEnd [v, 'ー'] = [v, 'ー', 'ー']
      rw [elongLineEnd]
      simp [hv, elongTailMatch, dropOptional]
  | cons d q ih =>
    constructor
    · show elongLineEnd (d :: (q ++ [v])) = d :: (q ++ [v, 'ー', 'ー'])
      rw [elongLineEnd, elongTailMatch_before_vowel v hv q]
      simp [ih.1]
    · show elongLineEnd (d :: (q ++ [v, 'ー'])) = d :: (q ++ [v, 'ー', 'ー'])
      rw [elongLineEnd, elongTailMatch_before_vowel_mark v hv q]
      simp [ih.2]

/-- Claim C5 (amended): `applyVocalStyleC` is the seven content
substitutions followed by the line-final elongation step, and that step
rewrites every line ending in a bare vowel kana — with or without one
existing long-vowel mark — so that it ends in the vowel followed by
exactly two long-vowel marks: a bare vowel gains two marks, not one, and
a vowel with one mark gains one more. -/
theorem c5_amended_elongation_normalizes :
    (∀ l : List Char, applyVocalStyleC l = elongLineEnd (vocalStyleSubsts l)) ∧
    ∀ (p : List Char) (v : Char), isVowelKana v = true →
      elongLineEnd (p ++ [v]) = p ++ [v, 'ー', 'ー'] ∧
      elongLineEnd (p ++ [v, 'ー']) = p ++ [v, 'ー', 'ー'] :=
  ⟨fun _ => rfl, fun p v hv => elongLineEnd_append_vowel v hv p⟩

/-- Witness for the amended C5 at the line カア. -/
theorem c5_amended_witness :
    elongLineEnd ("カ".data ++ ['ア']) = "カ".data ++ ['ア', 'ー', 'ー'] :=
  (c5_amended_elongation_normalizes.2 "カ".data 'ア' (by decide)).1

/-! ## Supporting lemmas for claim C10: fuel elimination -/

/-- Any sufficient fuel computes the same split. -/
theorem splitWsAux_mono : ∀ (n m : Nat) (l : List Char),
    l.length ≤ n → l.length ≤ m → splitWsAux n l = splitWsAux m l := by
  intro n
  induction n with
  | zero =>
    intro m l hn _
    have : l = [] := List.eq_nil_of_length_eq_zero (Nat.le_zero.mp hn)
    subst this
    cases m <;> rfl
  | succ n ih =>
    intro m l hn hm
    cases l with
    | nil => cases m <;> rfl
    | cons c rest =>
      cases m with
      | zero => simp at hm
      | succ m =>
        rw [splitWsAux, splitWsAux]
        by_cases hc : isJsWs c
        · simp only [hc, if_true]
          exact ih m rest (by simpa using hn) (by simpa using hm)
        · simp only [hc, Bool.false_eq_true, if_false]
          congr 1
          have hdrop : (c :: rest).dropWhile (fun d => !isJsWs d) =
              rest.dropWhile (fun d => !isJsWs d) := by
            simp [List.dropWhile_cons, hc]
          rw [hdrop]
          have hlen := (List.dropWhile_suffix (fun d => !isJsWs d) (l := rest)).length_le
          exact ih m _ (Nat.le_trans hlen (by simpa using hn))
            (Nat.le_trans hlen (by simpa using hm))

/-- Unfolding equation of `splitWs` on a whitespace head. -/
theorem splitWs_cons_ws (c : Char) (rest : List Char) (h : isJsWs c = true) :
    splitWs (c :: rest) = splitWs rest := by
  simp [splitWs, splitWsAux, h]

/-- Unfolding equation of `splitWs` on a non-whitespace head. -/
theorem splitWs_cons_not_ws (c : Char) (rest : List Char) (h : isJsWs c = false) :
    splitWs (c :: rest) =
      ((c :: rest).takeWhile (fun d => !isJsWs d)) ::
        splitWs ((c :: rest).dropWhile (fun d => !isJsWs d)) := by
  simp only [splitWs, List.length_cons]
  rw [splitWsAux]
  simp only [h, Bool.false_eq_true, if_false]
  congr 1
  have hdrop : (c :: rest).dropWhile (fun d => !isJsWs d) =
      rest.dropWhile (fun d => !isJsWs d) := by
    simp [List.dropWhile_cons, h]
  rw [hdrop]
  have hlen := (List.dropWhile_suffix (fun d => !isJsWs d) (l := rest)).length_le
  exact splitWsAux_mono rest.length _ _ hlen le_rfl

/-- Any sufficient fuel strips the same tags. -/
theorem stripSpanTagsAux_mono : ∀ (n m : Nat) (l : List Char),
    l.length ≤ n → l.length ≤ m → stripSpanTagsAux n l = stripSpanTagsAux m l := by
  intro n
  induction n with
  | zero =>
    intro m l hn _
    have : l = [] := List.eq_nil_of_length_eq_zero (Nat.le_zero.mp hn)
    subst this
    cases m <;> rfl
  | succ n ih =>
    intro m l hn hm
    cases l with
    | nil => cases m <;> rfl
    | cons c rest =>
      cases m with
      | zero => simp at hm
      | succ m =>
        rw [stripSpanTagsAux, stripSpanTagsAux]
        have hop : 1 ≤ spanOpenTag.length := by decide
        have hcl : 1 ≤ spanCloseTag.length := by decide
        by_cases h1 : spanOpenTag.isPrefixOf (c :: rest)
        · simp only [h1, if_true]
          refine ih m _ ?_ ?_ <;>
            · simp only [List.length_drop, List.length_cons] at hn hm ⊢
              omega
        · simp only [h1, Bool.false_eq_true, if_false]
          by_cases h2 : spanCloseTag.isPrefixOf (c :: rest)
          · simp only [h2, if_true]
            refine ih m _ ?_ ?_ <;>
              · simp only [List.length_drop, List.length_cons] at hn hm ⊢
                omega
          · simp only [h2, Bool.false_eq_true, if_false]
            exact congrArg (c :: ·)
              (ih m rest (by simpa using hn) (by simpa using hm))

/-! ## C10 stage B: unfolding equations -/

theorem isPrefixOf_append_self (l x : List Char) : l.isPrefixOf (l ++ x) = true :=
  List.isPrefixOf_iff_prefix.mpr (List.prefix_append l x)

theorem stripSpanTagsAux_eq (fuel : Nat) (c : Char) (rest : List Char) :
    stripSpanTagsAux (fuel + 1) (c :: rest) =
      if spanOpenTag.isPrefixOf (c :: rest) then
        stripSpanTagsAux fuel ((c :: rest).drop spanOpenTag.length)
      else if spanCloseTag.isPrefixOf (c :: rest) then
        stripSpanTagsAux fuel ((c :: rest).drop spanCloseTag.length)
      else c :: stripSpanTagsAux fuel rest := rfl

theorem spanOpenTag_cons :
    spanOpenTag =
      '<' :: "span class=\"bg-singkana-500/20 text-singkana-100 px-0.5 rounded\">".data :=
  rfl

theorem spanCloseTag_cons : spanCloseTag = '<' :: '/' :: "span>".data := rfl

theorem stripSpanTags_open (x : List Char) :
    stripSpanTags (spanOpenTag ++ x) = stripSpanTags x := by
  have hx : spanOpenTag ++ x =
      '<' :: ("span class=\"bg-singkana-500/20 text-singkana-100 px-0.5 rounded\">".data ++ x) := by
    rw [spanOpenTag_cons]; rfl
  have hlen : (spanOpenTag ++ x).length =
      ("span class=\"bg-singkana-500/20 text-singkana-100 px-0.5 rounded\">".data ++ x).length + 1 := by
    rw [hx]; rfl
  rw [stripSpanTags, hlen, hx, stripSpanTagsAux_eq, ← hx]
  rw [isPrefixOf_append_self, if_pos rfl]
  rw [List.drop_left]
  refine stripSpanTagsAux_mono _ _ _ ?_ le_rfl
  simp only [List.length_append]
  omega

theorem stripSpanTags_close (x : List Char) :
    stripSpanTags (spanCloseTag ++ x) = stripSpanTags x := by
  have hx : spanCloseTag ++ x = '<' :: ('/' :: ("span>".data ++ x)) := by
    rw [spanCloseTag_cons]; rfl
  have hlen : (spanCloseTag ++ x).length = ('/' :: ("span>".data ++ x)).length + 1 := by
    rw [hx]; rfl
  have hopen : spanOpenTag.isPrefixOf (spanCloseTag ++ x) = false := by
    rw [spanOpenTag_cons, hx]
    simp [List.isPrefixOf]
  rw [stripSpanTags, hlen, hx, stripSpanTagsAux_eq, ← hx]
  rw [hopen, isPrefixOf_append_self, if_neg (by simp), if_pos rfl]
  rw [List.drop_left]
  refine stripSpanTagsAux_mono _ _ _ ?_ le_rfl
  have h5 : ("span>".data).length = 5 := rfl
  simp only [List.length_cons, List.length_append, h5]
  omega

theorem stripSpanTags_cons_safe (c : Char) (x : List Char) (h : (c == '<') = false) :
    stripSpanTags (c :: x) = c :: stripSpanTags x := by
  have hlt : ('<' == c) = false := by
    rw [BEq.comm]; exact h
  have hopen : spanOpenTag.isPrefixOf (c :: x) = false := by
    rw [spanOpenTag_cons]
    simp [List.isPrefixOf, hlt]
  have hclose : spanCloseTag.isPrefixOf (c :: x) = false := by
    rw [spanCloseTag_cons]
    simp [List.isPrefixOf, hlt]
  rw [stripSpanTags, List.length_cons, stripSpanTagsAux_eq, hopen, hclose,
    if_neg (by simp), if_neg (by simp)]
  exact congrArg (c :: ·) (stripSpanTagsAux_mono _ _ _ le_rfl le_rfl)

/-! ## C10 stage C: unescape equations and the escape round trip -/

theorem unescapeHtmlAux_eq (fuel : Nat) (c : Char) (rest : List Char) :
    unescapeHtmlAux (fuel + 1) (c :: rest) =
      if c == '&' then
        if ['a', 'm', 'p', ';'].isPrefixOf rest then
          '&' :: unescapeHtmlAux fuel (rest.drop 4)
        else if ['l', 't', ';'].isPrefixOf rest then
          '<' :: unescapeHtmlAux fuel (rest.drop 3)
        else if ['g', 't', ';'].isPrefixOf rest then
          '>' :: unescapeHtmlAux fuel (rest.drop 3)
        else if ['n', 'b', 's', 'p', ';'].isPrefixOf rest then
          ' ' :: unescapeHtmlAux fuel (rest.drop 5)
        else c :: unescapeHtmlAux fuel rest
      else c :: unescapeHtmlAux fuel rest := rfl

theorem unescapeHtmlAux_mono : ∀ (n m : Nat) (l : List Char),
    l.length ≤ n → l.length ≤ m → unescapeHtmlAux n l = unescapeHtmlAux m l := by
  intro n
  induction n with
  | zero =>
    intro m l hn _
    have : l = [] := List.eq_nil_of_length_eq_zero (Nat.le_zero.mp hn)
    subst this
    cases m <;> rfl
  | succ n ih =>
    intro m l hn hm
    cases l with
    | nil => cases m <;> rfl
    | cons c rest =>
      cases m with
      | zero => simp at hm
      | succ m =>
        rw [unescapeHtmlAux_eq, unescapeHtmlAux_eq]
        simp only [List.length_cons, Nat.succ_le_succ_iff] at hn hm
        have hb : ∀ (k : Nat), rest.length - k ≤ n := fun k => by omega
        have hb' : ∀ (k : Nat), rest.length - k ≤ m := fun k => by omega
        split
        · split
          · exact congrArg _ (ih m _ (by simp only [List.length_drop]; exact hb 4)
              (by simp only [List.length_drop]; exact hb' 4))
          · split
            · exact congrArg _ (ih m _ (by simp only [List.length_drop]; exact hb 3)
                (by simp only [List.length_drop]; exact hb' 3))
            · split
              · exact congrArg _ (ih m _ (by simp only [List.length_drop]; exact hb 3)
                  (by simp only [List.length_drop]; exact hb' 3))
              · split
                · exact congrArg _ (ih m _
                    (by simp only [List.length_drop]; exact hb 5)
                    (by simp only [List.length_drop]; exact hb' 5))
                · exact congrArg _ (ih m _ hn hm)
        · exact congrArg _ (ih m _ hn hm)

theorem unescapeHtml_cons_safe (c : Char) (x : List Char) (h : (c == '&') = false) :
    unescapeHtml (c :: x) = c :: unescapeHtml x := by
  rw [unescapeHtml, List.length_cons, unescapeHtmlAux_eq, h,
    if_neg ((by decide) : ¬ (false = true))]
  rfl

theorem unescapeHtml_amp (x : List Char) :
    unescapeHtml ('&' :: 'a' :: 'm' :: 'p' :: ';' :: x) = '&' :: unescapeHtml x := by
  have hpre : (['a', 'm', 'p', ';'].isPrefixOf ('a' :: 'm' :: 'p' :: ';' :: x)) = true :=
    isPrefixOf_append_self ['a', 'm', 'p', ';'] x
  rw [unescapeHtml, List.length_cons, unescapeHtmlAux_eq,
    if_pos ((by decide) : ('&' == '&') = true), if_pos hpre,
    show ('a' :: 'm' :: 'p' :: ';' :: x).drop 4 = x from rfl]
  refine congrArg _ ?_
  rw [unescapeHtml]
  refine unescapeHtmlAux_mono _ _ _ ?_ le_rfl
  simp only [List.length_cons]
  omega

theorem unescapeHtml_lt (x : List Char) :
    unescapeHtml ('&' :: 'l' :: 't' :: ';' :: x) = '<' :: unescapeHtml x := by
  have hpre : (['l', 't', ';'].isPrefixOf ('l' :: 't' :: ';' :: x)) = true :=
    isPrefixOf_append_self ['l', 't', ';'] x
  have hamp : (['a', 'm', 'p', ';'].isPrefixOf ('l' :: 't' :: ';' :: x)) = false := by
    simp [List.isPrefixOf]
  rw [unescapeHtml, List.length_cons, unescapeHtmlAux_eq,
    if_pos ((by decide) : ('&' == '&') = true), hamp,
    if_neg ((by decide) : ¬ (false = true)), if_pos hpre,
    show ('l' :: 't' :: ';' :: x).drop 3 = x from rfl]
  refine congrArg _ ?_
  rw [unescapeHtml]
  refine unescapeHtmlAux_mono _ _ _ ?_ le_rfl
  simp only [List.length_cons]
  omega

theorem unescapeHtml_gt (x : List Char) :
    unescapeHtml ('&' :: 'g' :: 't' :: ';' :: x) = '>' :: unescapeHtml x := by
  have hpre : (['g', 't', ';'].isPrefixOf ('g' :: 't' :: ';' :: x)) = true :=
    isPrefixOf_append_self ['g', 't', ';'] x
  have hamp : (['a', 'm', 'p', ';'].isPrefixOf ('g' :: 't' :: ';' :: x)) = false := by
    simp [List.isPrefixOf]
  have hlt : (['l', 't', ';'].isPrefixOf ('g' :: 't' :: ';' :: x)) = false := by
    simp [List.isPrefixOf]
  rw [unescapeHtml, List.length_cons, unescapeHtmlAux_eq,
    if_pos ((by decide) : ('&' == '&') = true), hamp, hlt,
    if_neg ((by decide) : ¬ (false = true)), if_neg ((by decide) : ¬ (false = true)),
    if_pos hpre, show ('g' :: 't' :: ';' :: x).drop 3 = x from rfl]
  refine congrArg _ ?_
  rw [unescapeHtml]
  refine unescapeHtmlAux_mono _ _ _ ?_ le_rfl
  simp only [List.length_cons]
  omega

theorem unescapeHtml_nbsp (x : List Char) :
    unescapeHtml ('&' :: 'n' :: 'b' :: 's' :: 'p' :: ';' :: x) =
      '\u00A0' :: unescapeHtml x := by
  have hpre : (['n', 'b', 's', 'p', ';'].isPrefixOf ('n' :: 'b' :: 's' :: 'p' :: ';' :: x)) = true :=
    isPrefixOf_append_self ['n', 'b', 's', 'p', ';'] x
  have hamp : (['a', 'm', 'p', ';'].isPrefixOf ('n' :: 'b' :: 's' :: 'p' :: ';' :: x)) = false := by
    simp [List.isPrefixOf]
  have hlt : (['l', 't', ';'].isPrefixOf ('n' :: 'b' :: 's' :: 'p' :: ';' :: x)) = false := by
    simp [List.isPrefixOf]
  have hgt : (['g', 't', ';'].isPrefixOf ('n' :: 'b' :: 's' :: 'p' :: ';' :: x)) = false := by
    simp [List.isPrefixOf]
  rw [unescapeHtml, List.length_cons, unescapeHtmlAux_eq,
    if_pos ((by decide) : ('&' == '&') = true), hamp, hlt, hgt,
    if_neg ((by decide) : ¬ (false = true)), if_neg ((by decide) : ¬ (false = true)),
    if_neg ((by decide) : ¬ (false = true)), if_pos hpre,
    show ('n' :: 'b' :: 's' :: 'p' :: ';' :: x).drop 5 = x from rfl]
  refine congrArg _ ?_
  rw [unescapeHtml]
  refine unescapeHtmlAux_mono _ _ _ ?_ le_rfl
  simp only [List.length_cons]
  omega

/-! ## C10 stage D: words, escaping, distribution -/

theorem takeWhile_append_all (p : Char → Bool) (w r : List Char)
    (h : ∀ c ∈ w, p c = true) : (w ++ r).takeWhile p = w ++ r.takeWhile p := by
  induction w with
  | nil => rfl
  | cons c w ih =>
    rw [List.cons_append, List.takeWhile_cons, if_pos (h c (by simp)),
      ih (fun d hd => h d (by simp [hd])), List.cons_append]

theorem dropWhile_append_all (p : Char → Bool) (w r : List Char)
    (h : ∀ c ∈ w, p c = true) : (w ++ r).dropWhile p = r.dropWhile p := by
  induction w with
  | nil => rfl
  | cons c w ih =>
    rw [List.cons_append, List.dropWhile_cons, if_pos (h c (by simp)),
      ih (fun d hd => h d (by simp [hd]))]

theorem splitWs_word_space (w x : List Char) (hw : w ≠ [])
    (hwf : ∀ c ∈ w, isJsWs c = false) :
    splitWs (w ++ ' ' :: x) = w :: splitWs x := by
  cases w with
  | nil => exact absurd rfl hw
  | cons c w' =>
    have hc : isJsWs c = false := hwf c (by simp)
    have hall : ∀ d ∈ c :: w', (fun d => !isJsWs d) d = true := by
      intro d hd
      simp [hwf d hd]
    have ht : ((c :: w') ++ ' ' :: x).takeWhile (fun d => !isJsWs d) = c :: w' := by
      rw [takeWhile_append_all _ _ _ hall, List.takeWhile_cons,
        if_neg (by decide), List.append_nil]
    have hd : ((c :: w') ++ ' ' :: x).dropWhile (fun d => !isJsWs d) = ' ' :: x := by
      rw [dropWhile_append_all _ _ _ hall, List.dropWhile_cons, if_neg (by decide)]
    rw [List.cons_append, splitWs_cons_not_ws c _ hc, ← List.cons_append, ht, hd,
      splitWs_cons_ws ' ' x (by decide)]

theorem splitWs_word (w : List Char) (hw : w ≠ [])
    (hwf : ∀ c ∈ w, isJsWs c = false) : splitWs w = [w] := by
  cases w with
  | nil => exact absurd rfl hw
  | cons c w' =>
    have hc : isJsWs c = false := hwf c (by simp)
    have hall : ∀ d ∈ c :: w', (fun d => !isJsWs d) d = true := by
      intro d hd
      simp [hwf d hd]
    rw [splitWs_cons_not_ws c _ hc, List.takeWhile_eq_self_iff.mpr hall,
      List.dropWhile_eq_nil_iff.mpr hall]
    rfl

theorem splitWs_all_ws (l : List Char) (h : ∀ c ∈ l, isJsWs c = true) :
    splitWs l = [] := by
  induction l with
  | nil => rfl
  | cons c rest ih =>
    rw [splitWs_cons_ws c rest (h c (by simp))]
    exact ih (fun d hd => h d (by simp [hd]))

theorem splitWsAux_words : ∀ (fuel : Nat) (l : List Char), l.length ≤ fuel →
    ∀ w ∈ splitWsAux fuel l, w ≠ [] ∧ ∀ c ∈ w, isJsWs c = false := by
  intro fuel
  induction fuel with
  | zero =>
    intro l hl
    have : l = [] := List.eq_nil_of_length_eq_zero (Nat.le_zero.mp hl)
    subst this
    simp [splitWsAux]
  | succ fuel ih =>
    intro l hl w hw
    cases l with
    | nil => simp [splitWsAux] at hw
    | cons c rest =>
      simp only [List.length_cons, Nat.succ_le_succ_iff] at hl
      rw [splitWsAux] at hw
      by_cases hc : isJsWs c = true
      · rw [if_pos hc] at hw
        exact ih rest hl w hw
      · rw [if_neg hc] at hw
        have hc' : isJsWs c = false := by revert hc; cases isJsWs c <;> simp
        rcases List.mem_cons.mp hw with rfl | hw
        · constructor
          · rw [List.takeWhile_cons, if_pos (by simp [hc'])]
            simp
          · intro d hd
            have := List.mem_takeWhile_imp hd
            simpa using this
        · have hdrop : (c :: rest).dropWhile (fun d => !isJsWs d) =
              rest.dropWhile (fun d => !isJsWs d) := by
            rw [List.dropWhile_cons, if_pos (by simp [hc'])]
          rw [hdrop] at hw
          exact ih _ (Nat.le_trans (List.dropWhile_suffix _).length_le hl) w hw

theorem splitWs_words (l : List Char) :
    ∀ w ∈ splitWs l, w ≠ [] ∧ ∀ c ∈ w, isJsWs c = false :=
  splitWsAux_words l.length l le_rfl

theorem escapeHtmlChar_props (c : Char) (hc : isJsWs c = false) :
    ∀ d ∈ escapeHtmlChar c, (d == '<') = false ∧ isJsWs d = false := by
  intro d hd
  rw [escapeHtmlChar] at hd
  by_cases h1 : (c == '&') = true
  · rw [if_pos h1] at hd
    exact (by decide : ∀ d ∈ "&amp;".data, (d == '<') = false ∧ isJsWs d = false) d hd
  · rw [if_neg (by simp [h1])] at hd
    by_cases h2 : (c == '\u00A0') = true
    · rw [if_pos h2] at hd
      exact (by decide : ∀ d ∈ "&nbsp;".data, (d == '<') = false ∧ isJsWs d = false) d hd
    · rw [if_neg (by simp [h2])] at hd
      by_cases h3 : (c == '<') = true
      · rw [if_pos h3] at hd
        exact (by decide : ∀ d ∈ "&lt;".data, (d == '<') = false ∧ isJsWs d = false) d hd
      · rw [if_neg (by simp [h3])] at hd
        by_cases h4 : (c == '>') = true
        · rw [if_pos h4] at hd
          exact (by decide : ∀ d ∈ "&gt;".data, (d == '<') = false ∧ isJsWs d = false) d hd
        · rw [if_neg (by simp [h4])] at hd
          have : d = c := by simpa using hd
          subst this
          have h3' : (d == '<') = false := by revert h3; cases d == '<' <;> simp
          exact ⟨h3', hc⟩

theorem escapeHtml_props (w : List Char) (hw : ∀ c ∈ w, isJsWs c = false) :
    ∀ d ∈ escapeHtml w, (d == '<') = false ∧ isJsWs d = false := by
  intro d hd
  rw [escapeHtml] at hd
  rcases List.mem_flatten.mp hd with ⟨l, hl, hdl⟩
  rcases List.mem_map.mp hl with ⟨c, hcw, rfl⟩
  exact escapeHtmlChar_props c (hw c hcw) d hdl

theorem escapeHtml_cons (c : Char) (w : List Char) :
    escapeHtml (c :: w) = escapeHtmlChar c ++ escapeHtml w := by
  simp [escapeHtml]

theorem unescape_escape_append (w x : List Char) :
    unescapeHtml (escapeHtml w ++ x) = w ++ unescapeHtml x := by
  induction w with
  | nil => simp [escapeHtml]
  | cons c w ih =>
    rw [escapeHtml_cons, List.append_assoc]
    by_cases h1 : (c == '&') = true
    · have hc : c = '&' := eq_of_beq h1
      subst hc
      rw [escapeHtmlChar, if_pos ((by decide) : (('&' : Char) == '&') = true)]
      show unescapeHtml ('&' :: 'a' :: 'm' :: 'p' :: ';' :: (escapeHtml w ++ x)) = _
      rw [unescapeHtml_amp, ih]
      rfl
    · rw [escapeHtmlChar, if_neg (by simp [h1])]
      by_cases h2 : (c == '\u00A0') = true
      · have hc : c = '\u00A0' := eq_of_beq h2
        subst hc
        rw [if_pos ((by decide) : (('\u00A0' : Char) == '\u00A0') = true)]
        show unescapeHtml ('&' :: 'n' :: 'b' :: 's' :: 'p' :: ';' :: (escapeHtml w ++ x)) = _
        rw [unescapeHtml_nbsp, ih]
        rfl
      · rw [if_neg (by simp [h2])]
        by_cases h3 : (c == '<') = true
        · have hc : c = '<' := eq_of_beq h3
          subst hc
          rw [if_pos ((by decide) : (('<' : Char) == '<') = true)]
          show unescapeHtml ('&' :: 'l' :: 't' :: ';' :: (escapeHtml w ++ x)) = _
          rw [unescapeHtml_lt, ih]
          rfl
        · rw [if_neg (by simp [h3])]
          by_cases h4 : (c == '>') = true
          · have hc : c = '>' := eq_of_beq h4
            subst hc
            rw [if_pos ((by decide) : (('>' : Char) == '>') = true)]
            show unescapeHtml ('&' :: 'g' :: 't' :: ';' :: (escapeHtml w ++ x)) = _
            rw [unescapeHtml_gt, ih]
            rfl
          · rw [if_neg (by simp [h4])]
            have h1' : (c == '&') = false := by revert h1; cases c == '&' <;> simp
            rw [List.singleton_append, unescapeHtml_cons_safe c _ h1', ih]
            rfl

theorem stripSpanTags_append_safe (y x : List Char)
    (hy : ∀ d ∈ y, (d == '<') = false) :
    stripSpanTags (y ++ x) = y ++ stripSpanTags x := by
  induction y with
  | nil => rfl
  | cons d y ih =>
    rw [List.cons_append, stripSpanTags_cons_safe d _ (hy d (by simp)),
      ih (fun e he => hy e (by simp [he])), List.cons_append]

/-! ## C10 stage E: reconstruction of the optimized words -/

theorem strip_unescape_chunk (k z : List Char)
    (hkf : ∀ c ∈ k, isJsWs c = false) :
    unescapeHtml (stripSpanTags (spanOpenTag ++ escapeHtml k ++ spanCloseTag ++ z)) =
      k ++ unescapeHtml (stripSpanTags z) := by
  rw [List.append_assoc, List.append_assoc, stripSpanTags_open,
    stripSpanTags_append_safe _ _ (fun d hd => (escapeHtml_props k hkf d hd).1),
    stripSpanTags_close, unescape_escape_append]

theorem strip_unescape_chunk_only (k : List Char)
    (hkf : ∀ c ∈ k, isJsWs c = false) :
    unescapeHtml (stripSpanTags (spanOpenTag ++ escapeHtml k ++ spanCloseTag)) = k := by
  rw [List.append_assoc, stripSpanTags_open,
    stripSpanTags_append_safe _ _ (fun d hd => (escapeHtml_props k hkf d hd).1),
    show stripSpanTags spanCloseTag = [] from by decide,
    unescape_escape_append,
    show unescapeHtml ([] : List Char) = [] from rfl, List.append_nil]

theorem strip_unescape_plain (k z : List Char)
    (hkf : ∀ c ∈ k, isJsWs c = false) :
    unescapeHtml (stripSpanTags (escapeHtml k ++ z)) =
      k ++ unescapeHtml (stripSpanTags z) := by
  rw [stripSpanTags_append_safe _ _ (fun d hd => (escapeHtml_props k hkf d hd).1),
    unescape_escape_append]

theorem strip_unescape_plain_only (k : List Char)
    (hkf : ∀ c ∈ k, isJsWs c = false) :
    unescapeHtml (stripSpanTags (escapeHtml k)) = k := by
  rw [show escapeHtml k = escapeHtml k ++ ([] : List Char) from (List.append_nil _).symm,
    stripSpanTags_append_safe _ _ (fun d hd => (escapeHtml_props k hkf d hd).1),
    show stripSpanTags ([] : List Char) = [] from rfl,
    unescape_escape_append,
    show unescapeHtml ([] : List Char) = [] from rfl, List.append_nil]

theorem strip_unescape_space (z : List Char) :
    unescapeHtml (stripSpanTags (' ' :: z)) =
      ' ' :: unescapeHtml (stripSpanTags z) := by
  rw [stripSpanTags_cons_safe ' ' _ (by decide), unescapeHtml_cons_safe ' ' _ (by decide)]

theorem diffLoopTail_reconstruct : ∀ ks : List (List Char),
    (∀ w ∈ ks, w ≠ [] ∧ ∀ c ∈ w, isJsWs c = false) →
    splitWs (unescapeHtml (stripSpanTags (diffLoopTail ks))) = ks := by
  intro ks
  induction ks with
  | nil => intro _; rfl
  | cons k ks ih =>
    intro hk
    have hkw := hk k (by simp)
    rw [diffLoopTail, List.append_assoc]
    cases ks with
    | nil =>
      rw [show (if (List.isEmpty ([] : List (List Char))) then ([] : List Char)
            else [' ']) = [] from rfl,
        show diffLoopTail ([] : List (List Char)) = [] from rfl,
        List.nil_append, List.append_nil,
        strip_unescape_chunk_only k hkw.2, splitWs_word k hkw.1 hkw.2]
    | cons k2 ks2 =>
      rw [show (if (List.isEmpty (k2 :: ks2)) then ([] : List Char)
            else [' ']) = [' '] from rfl,
        List.singleton_append,
        strip_unescape_chunk k _ hkw.2, strip_unescape_space,
        splitWs_word_space k _ hkw.1 hkw.2,
        ih (fun w hw => hk w (by simp [hw]))]

theorem diffLoop_reconstruct : ∀ (ss ks : List (List Char)),
    (∀ w ∈ ss, w ≠ [] ∧ ∀ c ∈ w, isJsWs c = false) →
    (∀ w ∈ ks, w ≠ [] ∧ ∀ c ∈ w, isJsWs c = false) →
    splitWs (unescapeHtml (stripSpanTags (diffLoop ss ks))) = ks := by
  intro ss
  induction ss with
  | nil => intro ks _ hk; exact diffLoopTail_reconstruct ks hk
  | cons s ss ih =>
    intro ks hs hk
    have hss := fun w hw => hs w (List.mem_cons_of_mem s hw)
    cases ks with
    | nil =>
      cases ss with
      | nil => rfl
      | cons s2 ss2 =>
        rw [diffLoop,
          show (if (List.isEmpty (s2 :: ss2)) then ([] : List Char)
              else [' ']) = [' '] from rfl,
          List.singleton_append, strip_unescape_space,
          splitWs_cons_ws ' ' _ (by decide)]
        exact ih [] hss (by simp)
    | cons k ks =>
      have hkw := hk k (by simp)
      have hks := fun w hw => hk w (List.mem_cons_of_mem k hw)
      rw [diffLoop, List.append_assoc]
      by_cases hsk : (s == k) = true
      · rw [if_pos hsk]
        cases ss with
        | nil =>
          cases ks with
          | nil =>
            rw [show (if (List.isEmpty ([] : List (List Char)) &&
                  List.isEmpty ([] : List (List Char))) then ([] : List Char)
                else [' ']) = [] from rfl,
              show diffLoop ([] : List (List Char)) ([] : List (List Char)) = []
                from rfl,
              List.nil_append, List.append_nil,
              strip_unescape_plain_only k hkw.2, splitWs_word k hkw.1 hkw.2]
          | cons k2 ks2 =>
            rw [show (if (List.isEmpty ([] : List (List Char)) &&
                  List.isEmpty (k2 :: ks2)) then ([] : List Char)
                else [' ']) = [' '] from rfl,
              List.singleton_append,
              strip_unescape_plain k _ hkw.2, strip_unescape_space,
              splitWs_word_space k _ hkw.1 hkw.2, ih (k2 :: ks2) hss hks]
        | cons s2 ss2 =>
          rw [show (if (List.isEmpty (s2 :: ss2) && List.isEmpty ks)
                then ([] : List Char) else [' ']) = [' '] from rfl,
            List.singleton_append,
            strip_unescape_plain k _ hkw.2, strip_unescape_space,
            splitWs_word_space k _ hkw.1 hkw.2, ih ks hss hks]
      · rw [if_neg hsk]
        cases ss with
        | nil =>
          cases ks with
          | nil =>
            rw [show (if (List.isEmpty ([] : List (List Char)) &&
                  List.isEmpty ([] : List (List Char))) then ([] : List Char)
                else [' ']) = [] from rfl,
              show diffLoop ([] : List (List Char)) ([] : List (List Char)) = []
                from rfl,
              List.nil_append, List.append_nil,
              strip_unescape_chunk_only k hkw.2, splitWs_word k hkw.1 hkw.2]
          | cons k2 ks2 =>
            rw [show (if (List.isEmpty ([] : List (List Char)) &&
                  List.isEmpty (k2 :: ks2)) then ([] : List Char)
                else [' ']) = [' '] from rfl,
              List.singleton_append,
              strip_unescape_chunk k _ hkw.2, strip_unescape_space,
              splitWs_word_space k _ hkw.1 hkw.2, ih (k2 :: ks2) hss hks]
        | cons s2 ss2 =>
          rw [show (if (List.isEmpty (s2 :: ss2) && List.isEmpty ks)
                then ([] : List Char) else [' ']) = [' '] from rfl,
            List.singleton_append,
            strip_unescape_chunk k _ hkw.2, strip_unescape_space,
            splitWs_word_space k _ hkw.1 hkw.2, ih ks hss hks]

/-- Claim C10: for non-empty standard and optimized inputs, removing the
changed-marker span tags from the output of `highlightDifferences`,
undoing the HTML escaping, and splitting on whitespace recovers exactly
the optimized input's whitespace-split word sequence — the diff never
drops, duplicates, reorders or alters an optimized word, and every word
in the output is a word of the optimized input. -/
theorem c10_diff_preserves_optimized_words :
    ∀ standard singkana : List Char, standard ≠ [] → singkana ≠ [] →
      splitWs (unescapeHtml (stripSpanTags (highlightDifferences standard singkana))) =
        splitWs singkana := by
  intro s k hs hk
  have hs' : s.isEmpty = false := by
    cases s with
    | nil => exact absurd rfl hs
    | cons a l => rfl
  have hk' : k.isEmpty = false := by
    cases k with
    | nil => exact absurd rfl hk
    | cons a l => rfl
  rw [highlightDifferences, if_neg (by simp [hs', hk'])]
  exact diffLoop_reconstruct (splitWs s) (splitWs k) (splitWs_words s) (splitWs_words k)

/-- Witness for C10 at the spec's diff example inputs. -/
theorem c10_diff_preserves_optimized_words_witness :
    splitWs (unescapeHtml (stripSpanTags
        (highlightDifferences "ス ユ".data "ユー".data))) =
      splitWs "ユー".data :=
  c10_diff_preserves_optimized_words "ス ユ".data "ユー".data (by decide) (by decide)

/-! ## Supporting lemmas for claim C1: case-insensitive override lookup -/

/-- An ASCII letter never beq-equals a character outside the class. -/
theorem letter_beq_false (c x : Char) (h : isAsciiLetter c = true)
    (hx : isAsciiLetter x = false) : (c == x) = false := by
  cases hbe : c == x
  · rfl
  · rw [eq_of_beq hbe] at h
    rw [h] at hx
    simp at hx

/-- An ASCII letter is at most lowercase z in the character order. -/
theorem letter_le_z (c : Char) (h : isAsciiLetter c = true) : c ≤ 'z' := by
  simp only [isAsciiLetter, Bool.or_eq_true, Bool.and_eq_true,
    decide_eq_true_eq] at h
  rcases h with ⟨_, h2⟩ | ⟨_, h2⟩
  · exact le_trans h2 (by decide)
  · exact h2

/-- An ASCII letter is not JS whitespace. -/
theorem letter_not_ws (c : Char) (h : isAsciiLetter c = true) :
    isJsWs c = false := by
  have hz := letter_le_z c h
  have hr : (decide (' ' ≤ c) && decide (c ≤ ' ')) = false := by
    have hn : ¬ (' ' ≤ c) := fun hle => absurd (le_trans hle hz) (by decide)
    rw [decide_eq_false hn, Bool.false_and]
  simp only [isJsWs, hr,
    letter_beq_false c ' ' h (by decide), letter_beq_false c '\t' h (by decide),
    letter_beq_false c '\n' h (by decide), letter_beq_false c '\r' h (by decide),
    letter_beq_false c '\u000B' h (by decide), letter_beq_false c '\u000C' h (by decide),
    letter_beq_false c ' ' h (by decide), letter_beq_false c ' ' h (by decide),
    letter_beq_false c ' ' h (by decide), letter_beq_false c ' ' h (by decide),
    letter_beq_false c ' ' h (by decide), letter_beq_false c ' ' h (by decide),
    letter_beq_false c '　' h (by decide), letter_beq_false c '﻿' h (by decide),
    Bool.or_false, Bool.false_or]

/-- A letter is in the class A-Za-z0-9. -/
theorem letter_alnum (c : Char) (h : isAsciiLetter c = true) :
    isAsciiAlnum c = true := by
  simp [isAsciiAlnum, h]

/-- Mapping a list by a function that fixes each of its elements does
nothing. -/
theorem map_id_of (f : Char → Char) (l : List Char)
    (h : ∀ c ∈ l, f c = c) : l.map f = l := by
  induction l with
  | nil => rfl
  | cons c rest ih =>
    rw [List.map_cons, h c (by simp), ih (fun d hd => h d (by simp [hd]))]

/-- A letter or a plain apostrophe is fixed by the apostrophe-variant
normalization map of `normalizeLyricLine`. -/
theorem apostVariantFix (c : Char)
    (h : isAsciiLetter c = true ∨ c = '\x27') :
    (if c == '’' || c == '‘' || c == '‛' || c == '‚' || c == '\x60' ||
        c == '＇' || c == '｀' || c == '´' then '\x27' else c) = c := by
  rcases h with h | rfl
  · have hcond : (c == '’' || c == '‘' || c == '‛' || c == '‚' || c == '\x60' ||
        c == '＇' || c == '｀' || c == '´') = false := by
      rw [letter_beq_false c '’' h (by decide), letter_beq_false c '‘' h (by decide),
        letter_beq_false c '‛' h (by decide), letter_beq_false c '‚' h (by decide),
        letter_beq_false c '\x60' h (by decide), letter_beq_false c '＇' h (by decide),
        letter_beq_false c '｀' h (by decide), letter_beq_false c '´' h (by decide)]
      rfl
    simp [hcond]
  · decide

/-- A letter or a plain apostrophe is fixed by the double-quote-variant
normalization map of `normalizeLyricLine`. -/
theorem quoteVariantFix (c : Char)
    (h : isAsciiLetter c = true ∨ c = '\x27') :
    (if c == '“' || c == '”' || c == '„' then '"' else c) = c := by
  rcases h with h | rfl
  · have hcond : (c == '“' || c == '”' || c == '„') = false := by
      rw [letter_beq_false c '“' h (by decide), letter_beq_false c '”' h (by decide),
        letter_beq_false c '„' h (by decide)]
      rfl
    simp [hcond]
  · decide

/-- A letter or a space is fixed by the fullwidth-colon normalization map
of `normalizeLyricLine`. -/
theorem colonVariantFix (c : Char)
    (h : isAsciiLetter c = true ∨ c = ' ') :
    (if c == '：' then ':' else c) = c := by
  rcases h with h | rfl
  · simp [letter_beq_false c '：' h (by decide)]
  · decide

/-- Members of a word of letters followed by an optional apostrophe. -/
theorem mem_word_apost (u s : List Char)
    (hu : ∀ c ∈ u, isAsciiLetter c = true) (hs : s = [] ∨ s = ['\x27']) :
    ∀ c ∈ u ++ s, isAsciiLetter c = true ∨ c = '\x27' := by
  intro c hc
  rcases List.mem_append.mp hc with hcu | hcs
  · exact Or.inl (hu c hcu)
  · rcases hs with rfl | rfl
    · simp at hcs
    · simp at hcs
      exact Or.inr hcs

/-- Members of a word of letters followed by an optional space. -/
theorem mem_word_space (u s : List Char)
    (hu : ∀ c ∈ u, isAsciiLetter c = true) (hs : s = [] ∨ s = [' ']) :
    ∀ c ∈ u ++ s, isAsciiLetter c = true ∨ c = ' ' := by
  intro c hc
  rcases List.mem_append.mp hc with hcu | hcs
  · exact Or.inl (hu c hcu)
  · rcases hs with rfl | rfl
    · simp at hcs
    · simp at hcs
      exact Or.inr hcs

/-- The apostrophe-variant map is the identity on a word of letters with
an optional trailing apostrophe. -/
theorem map_apost_variant_id (l : List Char)
    (h : ∀ c ∈ l, isAsciiLetter c = true ∨ c = '\x27') :
    l.map (fun c => if c == '’' || c == '‘' || c == '‛' || c == '‚' || c == '\x60' ||
        c == '＇' || c == '｀' || c == '´' then '\x27' else c) = l :=
  map_id_of _ l (fun c hc => apostVariantFix c (h c hc))

/-- The double-quote-variant map is the identity on a word of letters with
an optional trailing apostrophe. -/
theorem map_quote_variant_id (l : List Char)
    (h : ∀ c ∈ l, isAsciiLetter c = true ∨ c = '\x27') :
    l.map (fun c => if c == '“' || c == '”' || c == '„' then '"' else c) = l :=
  map_id_of _ l (fun c hc => quoteVariantFix c (h c hc))

/-- The fullwidth-colon map is the identity on a word of letters with an
optional trailing space. -/
theorem map_colon_variant_id (l : List Char)
    (h : ∀ c ∈ l, isAsciiLetter c = true ∨ c = ' ') :
    l.map (fun c => if c == '：' then ':' else c) = l :=
  map_id_of _ l (fun c hc => colonVariantFix c (h c hc))

/-- Unfolding of `replaceApostNAux` on a non-apostrophe head. -/
theorem replaceApostNAux_cons (b : Bool) (c : Char) (z : List Char)
    (hc : (c == '\x27') = false) :
    replaceApostNAux b (c :: z) = c :: replaceApostNAux (isWordChar c) z := by
  rw [replaceApostNAux.eq_def]
  split <;> simp_all

/-- Unfolding of `removeInnerApost` when the second character is not an
apostrophe. -/
theorem removeInnerApost_cons (c c2 : Char) (z : List Char)
    (h2 : (c2 == '\x27') = false) :
    removeInnerApost (c :: c2 :: z) = c :: removeInnerApost (c2 :: z) := by
  rw [removeInnerApost.eq_def]
  split <;> simp_all

/-- The apostrophe-to-and pass is the identity on a word of letters with
an optional trailing apostrophe. -/
theorem replaceApostNAux_word_apost (s : List Char) (hs : s = [] ∨ s = ['\x27']) :
    ∀ u, (∀ c ∈ u, isAsciiLetter c = true) →
    ∀ b, replaceApostNAux b (u ++ s) = u ++ s := by
  intro u
  induction u with
  | nil =>
    intro _ b
    rcases hs with rfl | rfl
    · rfl
    · rfl
  | cons c u2 ih =>
    intro hu b
    have hc : (c == '\x27') = false :=
      letter_beq_false c '\x27' (hu c (by simp)) (by decide)
    simp only [List.cons_append]
    rw [replaceApostNAux_cons b c _ hc]
    have := ih (fun d hd => hu d (by simp [hd])) (isWordChar c)
    rw [this]

/-- The inner-apostrophe pass is the identity on a word of letters with
an optional trailing apostrophe. -/
theorem removeInnerApost_word_apost (s : List Char) (hs : s = [] ∨ s = ['\x27']) :
    ∀ u, (∀ c ∈ u, isAsciiLetter c = true) →
    removeInnerApost (u ++ s) = u ++ s := by
  intro u
  induction u with
  | nil =>
    intro _
    rcases hs with rfl | rfl
    · rfl
    · rfl
  | cons c u2 ih =>
    intro hu
    cases u2 with
    | nil =>
      rcases hs with rfl | rfl
      · rfl
      · rfl
    | cons c2 u3 =>
      have h2 : (c2 == '\x27') = false :=
        letter_beq_false c2 '\x27' (hu c2 (by simp)) (by decide)
      simp only [List.cons_append]
      rw [removeInnerApost_cons c c2 _ h2]
      have := ih (fun d hd => hu d (by simp [hd]))
      simp only [List.cons_append] at this
      rw [this]

/-- The fueled trailing-apostrophe pass maps the empty list to itself. -/
theorem removeTrailApostAux_nil (fuel : Nat) :
    removeTrailApostAux fuel [] = [] := by
  cases fuel <;> rfl

/-- Unfolding of `removeTrailApostAux` with positive fuel on a cons. -/
theorem removeTrailApostAux_succ (fuel : Nat) (c : Char) (rest : List Char) :
    removeTrailApostAux (fuel + 1) (c :: rest) =
      if isAsciiLetter c && !(rest.takeWhile (fun d => d == '\x27')).isEmpty &&
          headIsWordChar (rest.dropWhile (fun d => d == '\x27')) then
        c :: removeTrailApostAux fuel (rest.dropWhile (fun d => d == '\x27'))
      else
        c :: removeTrailApostAux fuel rest := rfl

/-- The trailing-apostrophe pass is the identity on a word of letters with
an optional trailing apostrophe: at the end of the input the boundary
fails, so the run is kept. -/
theorem removeTrailApostAux_word_apost (s : List Char) (hs : s = [] ∨ s = ['\x27']) :
    ∀ u, (∀ c ∈ u, isAsciiLetter c = true) →
    ∀ fuel, removeTrailApostAux fuel (u ++ s) = u ++ s := by
  intro u
  induction u with
  | nil =>
    intro _ fuel
    rcases hs with rfl | rfl
    · exact removeTrailApostAux_nil fuel
    · cases fuel with
      | zero => rfl
      | succ f =>
        show removeTrailApostAux (f + 1) ['\x27'] = ['\x27']
        rw [removeTrailApostAux_succ]
        simp [removeTrailApostAux_nil]
  | cons c u2 ih =>
    intro hu fuel
    cases fuel with
    | zero => rfl
    | succ f =>
      simp only [List.cons_append]
      rw [removeTrailApostAux_succ]
      have hcond : (isAsciiLetter c &&
          !((u2 ++ s).takeWhile (fun d => d == '\x27')).isEmpty &&
          headIsWordChar ((u2 ++ s).dropWhile (fun d => d == '\x27'))) = false := by
        cases u2 with
        | cons c2 u3 =>
          have h2 : (c2 == '\x27') = false :=
            letter_beq_false c2 '\x27' (hu c2 (by simp)) (by decide)
          simp [List.cons_append, List.takeWhile_cons, h2]
        | nil =>
          rcases hs with rfl | rfl
          · simp
          · simp [List.takeWhile_cons, List.dropWhile_cons, headIsWordChar]
      rw [hcond]
      simp only [Bool.false_eq_true, if_false]
      have := ih (fun d hd => hu d (by simp [hd])) f
      rw [this]

/-- The fueled apostrophe-run pass maps the empty list to itself. -/
theorem apostRunsToSpaceAux_nil (fuel : Nat) :
    apostRunsToSpaceAux fuel [] = [] := by
  cases fuel <;> rfl

/-- Unfolding of `apostRunsToSpaceAux` with positive fuel on a cons. -/
theorem apostRunsToSpaceAux_succ (fuel : Nat) (c : Char) (rest : List Char) :
    apostRunsToSpaceAux (fuel + 1) (c :: rest) =
      if c == '\x27' then
        ' ' :: apostRunsToSpaceAux fuel (rest.dropWhile (fun d => d == '\x27'))
      else
        c :: apostRunsToSpaceAux fuel rest := rfl

/-- The apostrophe-run pass on a word of letters with an optional trailing
apostrophe keeps the letters and turns the apostrophe into a space. -/
theorem apostRunsToSpaceAux_word_apost (s s2 : List Char)
    (hss : (s = [] ∧ s2 = []) ∨ (s = ['\x27'] ∧ s2 = [' '])) :
    ∀ u, (∀ c ∈ u, isAsciiLetter c = true) →
    ∀ fuel, (u ++ s).length ≤ fuel →
    apostRunsToSpaceAux fuel (u ++ s) = u ++ s2 := by
  intro u
  induction u with
  | nil =>
    intro _ fuel hf
    rcases hss with ⟨rfl, rfl⟩ | ⟨rfl, rfl⟩
    · exact apostRunsToSpaceAux_nil fuel
    · cases fuel with
      | zero => simp at hf
      | succ f =>
        show apostRunsToSpaceAux (f + 1) ['\x27'] = [' ']
        rw [apostRunsToSpaceAux_succ]
        simp [apostRunsToSpaceAux_nil]
  | cons c u2 ih =>
    intro hu fuel hf
    cases fuel with
    | zero => simp at hf
    | succ f =>
      simp only [List.cons_append]
      rw [apostRunsToSpaceAux_succ]
      have hc : (c == '\x27') = false :=
        letter_beq_false c '\x27' (hu c (by simp)) (by decide)
      rw [hc]
      simp only [Bool.false_eq_true, if_false]
      have hf2 : (u2 ++ s).length ≤ f := by
        simp only [List.cons_append, List.length_cons] at hf
        omega
      have := ih (fun d hd => hu d (by simp [hd])) f hf2
      rw [this]

/-- The line normalization is the identity on a word of letters, and turns
a trailing apostrophe after the word into a trailing space. -/
theorem normalizeLyricLine_word_apost (u : List Char)
    (hu : ∀ c ∈ u, isAsciiLetter c = true) (s s2 : List Char)
    (hss : (s = [] ∧ s2 = []) ∨ (s = ['\x27'] ∧ s2 = [' '])) :
    normalizeLyricLine (u ++ s) = u ++ s2 := by
  have hs : s = [] ∨ s = ['\x27'] := by
    rcases hss with ⟨rfl, _⟩ | ⟨rfl, _⟩
    · exact Or.inl rfl
    · exact Or.inr rfl
  have hs2 : s2 = [] ∨ s2 = [' '] := by
    rcases hss with ⟨_, rfl⟩ | ⟨_, rfl⟩
    · exact Or.inl rfl
    · exact Or.inr rfl
  have hmem := mem_word_apost u s hu hs
  simp only [normalizeLyricLine]
  rw [map_apost_variant_id _ hmem, map_quote_variant_id _ hmem,
    replaceApostNAux_word_apost s hs u hu false,
    removeInnerApost_word_apost s hs u hu]
  simp only [removeTrailApost]
  rw [removeTrailApostAux_word_apost s hs u hu (u ++ s).length]
  simp only [apostRunsToSpace]
  rw [apostRunsToSpaceAux_word_apost s s2 hss u hu (u ++ s).length le_rfl,
    map_colon_variant_id _ (mem_word_space u s2 hu hs2)]

/-- Trimming a word of letters with an optional trailing space gives the
word back. -/
theorem trimL_word_space (u : List Char) (hne : u ≠ [])
    (hu : ∀ c ∈ u, isAsciiLetter c = true)
    (s : List Char) (hs : s = [] ∨ s = [' ']) :
    trimL (u ++ s) = u := by
  have hdrop1 : (u ++ s).dropWhile isJsWs = u ++ s := by
    cases u with
    | nil => exact absurd rfl hne
    | cons c u2 =>
      rw [List.cons_append, List.dropWhile_cons,
        if_neg (by simp [letter_not_ws c (hu c (by simp))])]
  have hrevdrop : u.reverse.dropWhile isJsWs = u.reverse := by
    cases hr : u.reverse with
    | nil => rfl
    | cons d t =>
      have hd : d ∈ u := by
        rw [← List.mem_reverse, hr]
        simp
      rw [List.dropWhile_cons, if_neg (by simp [letter_not_ws d (hu d hd)])]
  rw [trimL, hdrop1, trimEndL, List.reverse_append]
  rcases hs with rfl | rfl
  · rw [show ([] : List Char).reverse = [] from rfl, List.nil_append, hrevdrop,
      List.reverse_reverse]
  · rw [show ([' '] : List Char).reverse = [' '] from rfl, List.singleton_append,
      List.dropWhile_cons, if_pos (by decide), hrevdrop, List.reverse_reverse]

/-- The token conversion of a word of letters is its kana core lookup:
there is no leading and no trailing punctuation and the core is the whole
word. -/
theorem tokenToKana_letters (u : List Char) (hne : u ≠ [])
    (hu : ∀ c ∈ u, isAsciiLetter c = true) : tokenToKana u = kanaCoreOf u := by
  cases u with
  | nil => exact absurd rfl hne
  | cons c u2 =>
    have hcal : isAsciiAlnum c = true := letter_alnum c (hu c (by simp))
    have hlead : leadingPuncOf (c :: u2) = [] := by
      simp [leadingPuncOf, List.takeWhile_cons, hcal]
    obtain ⟨d, t, hdt⟩ : ∃ d t, (c :: u2).reverse = d :: t := by
      cases hr : (c :: u2).reverse with
      | nil => exact absurd (congrArg List.length hr) (by simp)
      | cons d t => exact ⟨d, t, rfl⟩
    have hd : d ∈ c :: u2 := by
      rw [← List.mem_reverse, hdt]
      simp
    have hdal : isAsciiAlnum d = true := letter_alnum d (hu d hd)
    have htrail : trailingPuncOf (c :: u2) = [] := by
      rw [trailingPuncOf, hdt]
      simp [List.takeWhile_cons, hdal]
    have hcore : coreOf (c :: u2) = c :: u2 := by
      rw [coreOf]
      have h1 : (c :: u2).dropWhile (fun x => !isAsciiAlnum x) = c :: u2 := by
        rw [List.dropWhile_cons, if_neg (by simp [hcal])]
      rw [h1, hdt]
      have h2 : (d :: t).dropWhile (fun x => !isAsciiAlnum x) = d :: t := by
        rw [List.dropWhile_cons, if_neg (by simp [hdal])]
      rw [h2, ← hdt, List.reverse_reverse]
    simp only [tokenToKana, hcore, hlead, htrail]
    simp

/-- Joining a one-element list of words needs no separator. -/
theorem intercalate_singleton (x : List Char) :
    List.intercalate [' '] [x] = x := by
  simp [List.intercalate]

/-- The whole line conversion of a single word of letters with an optional
trailing apostrophe is the post-pass chain applied to the kana core of
the word. -/
theorem englishToKanaLine_word_apost (u : List Char) (hne : u ≠ [])
    (hu : ∀ c ∈ u, isAsciiLetter c = true)
    (s s2 : List Char)
    (hss : (s = [] ∧ s2 = []) ∨ (s = ['\x27'] ∧ s2 = [' '])) :
    englishToKanaLine (u ++ s) = linePostPasses (kanaCoreOf u) := by
  have hnorm : normalizeLyricLine (u ++ s) = u ++ s2 :=
    normalizeLyricLine_word_apost u hu s s2 hss
  have hs2 : s2 = [] ∨ s2 = [' '] := by
    rcases hss with ⟨_, rfl⟩ | ⟨_, rfl⟩
    · exact Or.inl rfl
    · exact Or.inr rfl
  have hwf : ∀ c ∈ u, isJsWs c = false := fun c hc => letter_not_ws c (hu c hc)
  have htrim : trimL (u ++ s2) = u := trimL_word_space u hne hu s2 hs2
  have hsplit : splitWs (u ++ s2) = [u] := by
    rcases hs2 with rfl | rfl
    · rw [List.append_nil]
      exact splitWs_word u hne hwf
    · exact splitWs_word_space u [] hne hwf
  have hue : u.isEmpty = false := by
    cases u with
    | nil => exact absurd rfl hne
    | cons c u2 => rfl
  simp only [englishToKanaLine]
  rw [hnorm, htrim]
  rw [if_neg (by simp [hue])]
  rw [hsplit]
  simp only [List.map_cons, List.map_nil]
  rw [intercalate_singleton, tokenToKana_letters u hne hu]

/-- The fallback transducer only looks at the lowercased word, so words
with the same lowercase image convert alike. -/
theorem romanToKana_lower (w key : List Char) (hw : w.map toLowerChar = key)
    (hkey : key.map toLowerChar = key) (hkne : key ≠ []) :
    romanToKana w = romanToKana key := by
  have hne : w ≠ [] := by
    intro h
    rw [h] at hw
    exact hkne hw.symm
  have h1 : w.isEmpty = false := by
    cases w with
    | nil => exact absurd rfl hne
    | cons c w2 => rfl
  have h2 : key.isEmpty = false := by
    cases key with
    | nil => exact absurd rfl hkne
    | cons c k2 => rfl
  simp only [romanToKana, h1, h2, Bool.false_eq_true, if_false]
  rw [hw, hkey]

/-- A lowercased letter was a letter. -/
theorem toLower_letter_inv (c : Char) (h : isAsciiLetter (toLowerChar c) = true) :
    isAsciiLetter c = true := by
  rw [toLowerChar] at h
  split at h
  · next hif => simp [isAsciiLetter, hif.1, hif.2]
  · exact h

/-- The lowercase map fixes a character or the character is a letter. -/
theorem toLower_cases (c : Char) : toLowerChar c = c ∨ isAsciiLetter c = true := by
  rw [toLowerChar]
  split
  · next hif => exact Or.inr (by simp [isAsciiLetter, hif.1, hif.2])
  · exact Or.inl rfl

/-- A word whose lowercase image is all letters is all letters. -/
theorem map_toLower_all_letters : ∀ (w k : List Char),
    w.map toLowerChar = k → k.all isAsciiLetter = true →
    ∀ c ∈ w, isAsciiLetter c = true := by
  intro w
  induction w with
  | nil =>
    intro k _ _ c hc
    simp at hc
  | cons a w2 ih =>
    intro k hw hk c hc
    cases k with
    | nil => simp at hw
    | cons b k2 =>
      simp only [List.map_cons, List.cons.injEq] at hw
      simp only [List.all_cons, Bool.and_eq_true] at hk
      rcases List.mem_cons.mp hc with rfl | hc2
      · exact toLower_letter_inv c (hw.1 ▸ hk.1)
      · exact ih k2 hw.2 hk.2 c hc2

/-- A word whose lowercase image is a single character is a single
character. -/
theorem map_toLower_singleton (t : List Char) (x : Char)
    (h : t.map toLowerChar = [x]) : ∃ a, t = [a] ∧ toLowerChar a = x := by
  cases t with
  | nil => simp at h
  | cons a t2 =>
    simp only [List.map_cons, List.cons.injEq] at h
    exact ⟨a, by simp [List.map_eq_nil_iff.mp h.2], h.1⟩

/-- Decided facts about every override entry: the key looks itself up, the
post-pass chain on the value is the phrase correction followed by the
vocal styling, the fallback transducer disagrees with the value on the
key, the key is nonempty and already lowercase, and every key is all
letters except the one with a trailing apostrophe. -/
theorem overrides_facts : ∀ kv ∈ WORD_OVERRIDES,
    findOverride kv.1.data = some kv.2.data ∧
    linePostPasses kv.2.data = applyVocalStyleC (postProcessKana kv.2.data) ∧
    romanToKana kv.1.data ≠ kv.2.data ∧
    kv.1.data ≠ [] ∧
    kv.1.data.map toLowerChar = kv.1.data ∧
    (kv.1.data.all isAsciiLetter = true ∨ kv = ("holdin\x27", "ホールディン")) := by
  set_option maxHeartbeats 4000000 in
  set_option maxRecDepth 10000 in
  decide

/-- Claim C1: the override lookup is case-insensitive and takes precedence
over the fallback transducer. For every table entry and every word whose
lowercase image is the key of the entry, `englishToKanaLine` on that
single-word line produces exactly the katakana value of the table,
further transformed only by the phrase-correction and
vocal-styling/line-final-elongation post-passes; the kana core computed
for the word is the table value itself, and the output of the fallback
transducer on the word differs from it (so the override is never skipped
in favor of the fallback). -/
theorem c1_override_precedence : ∀ kv ∈ WORD_OVERRIDES, ∀ w : List Char,
    w.map toLowerChar = kv.1.data →
    englishToKanaLine w = applyVocalStyleC (postProcessKana kv.2.data) ∧
    kanaCoreOf w = kv.2.data ∧
    romanToKana w ≠ kv.2.data := by
  intro kv hkv w hw
  obtain ⟨f1, f2, f3, f4, f5, f6⟩ := overrides_facts kv hkv
  have hwne : w ≠ [] := by
    intro h
    rw [h] at hw
    exact f4 hw.symm
  have h2 : kanaCoreOf w = kv.2.data := by
    simp only [kanaCoreOf]
    rw [hw, f1]
  have h3 : romanToKana w ≠ kv.2.data := by
    rw [romanToKana_lower w kv.1.data hw f5 f4]
    exact f3
  refine ⟨?_, h2, h3⟩
  rcases f6 with hall | hkv2
  · have hletters := map_toLower_all_letters w kv.1.data hw hall
    have he := englishToKanaLine_word_apost w hwne hletters [] [] (Or.inl ⟨rfl, rfl⟩)
    rw [List.append_nil] at he
    rw [he, h2]
    exact f2
  · have hk1 : kv.1 = "holdin\x27" := by rw [hkv2]
    have hk2v : kv.2 = "ホールディン" := by rw [hkv2]
    rw [hk1] at hw
    rw [show ("holdin\x27" : String).data = "holdin".data ++ ['\x27'] from by decide] at hw
    obtain ⟨u, t, hwut, hu1, ht1⟩ := List.map_eq_append_iff.mp hw
    obtain ⟨a, hta, ha⟩ := map_toLower_singleton t '\x27' ht1
    subst hta
    subst hwut
    have hune : u ≠ [] := by
      intro h
      rw [h] at hu1
      exact absurd hu1 (by decide)
    have huletters : ∀ c ∈ u, isAsciiLetter c = true :=
      map_toLower_all_letters u "holdin".data hu1 (by decide)
    have hcoreu : kanaCoreOf u = kv.2.data := by
      simp only [kanaCoreOf]
      rw [hu1,
        show findOverride ("holdin".data) = some (("ホールディン" : String).data) from by decide,
        hk2v]
    rcases toLower_cases a with hfix | hal
    · have ha2 : a = '\x27' := hfix.symm.trans ha
      subst ha2
      have he := englishToKanaLine_word_apost u hune huletters ['\x27'] [' ']
        (Or.inr ⟨rfl, rfl⟩)
      rw [he, hcoreu]
      exact f2
    · have hwletters : ∀ c ∈ u ++ [a], isAsciiLetter c = true := by
        intro c hc
        rcases List.mem_append.mp hc with hcu | hca
        · exact huletters c hcu
        · simp at hca
          rw [hca]
          exact hal
      have hwne2 : u ++ [a] ≠ [] := by simp
      have he := englishToKanaLine_word_apost (u ++ [a]) hwne2 hwletters [] []
        (Or.inl ⟨rfl, rfl⟩)
      rw [List.append_nil] at he
      rw [he, h2]
      exact f2

/-- Witness for C1 at the table entry for the word you, exercised on the
capitalized variant You. -/
theorem c1_override_precedence_witness :
    (("you", "ユー") ∈ WORD_OVERRIDES ∧ "You".data.map toLowerChar = "you".data) ∧
    (englishToKanaLine "You".data = applyVocalStyleC (postProcessKana "ユー".data) ∧
     kanaCoreOf "You".data = "ユー".data ∧
     romanToKana "You".data ≠ "ユー".data) :=
  ⟨⟨by decide, by decide⟩,
    c1_override_precedence ("you", "ユー") (by decide) "You".data (by decide)⟩
